import Mathlib

/-!
# throt: a shallow embedding of `throt.c`

`throt RATE` copies standard input to standard output and sleeps between
chunks so that the throughput stays near `RATE` bytes per second.  The file
embeds the two functions of `throt.c` that carry the behaviour:

* `rw_loop`, the read / write / sleep loop, as a function from the rate and a
  script of what the operating system answers in each iteration to the trace of
  system calls issued and the way the loop ends;
* `parse_bytes`, the conversion of the command-line argument, together with the
  parts of the C library it relies on (`isspace`, `tolower`, `strtod`, IEEE
  double arithmetic and the conversion of a double to `unsigned long`).

`unsigned long` is the 64-bit type of the LP64 targets the program is built
for: its arithmetic is arithmetic modulo `2 ^ 64` on `Nat`.
-/

namespace Throt

/-! ## Machine integers -/

/-- The number of values of `unsigned long` (and of `size_t`). -/
def ULONG : Nat := 2 ^ 64

/-- Addition of two `unsigned long` values. -/
def uadd (a b : Nat) : Nat := (a + b) % ULONG

/-- Subtraction of two `unsigned long` values: it wraps around below zero. -/
def usub (a b : Nat) : Nat := (a % ULONG + (ULONG - b % ULONG)) % ULONG

/-- Conversion of a signed `long` value to `unsigned long`. -/
def toULong (i : Int) : Nat := (i % (ULONG : Int)).toNat

/-! ## The copy loop -/

/-- The size of the transfer buffer, `#define BUFSIZE 16384`. -/
def BUFSIZE : Nat := 16384

/-- A byte of the stream. -/
abbrev Byte := Nat

/-- What one call `read(STDIN_FILENO, buf, BUFSIZE)` does: it stores `bytes` at
the start of the buffer and returns their number (no bytes: end of input), or
it fails and returns `-1`. -/
inductive ReadResult
  | bytes (data : List Byte)
  | error
  deriving DecidableEq, Repr

/-- The value `n` returned by `read`. -/
def ReadResult.count : ReadResult → Int
  | .bytes data => (data.length : Int)
  | .error => -1

/-- The bytes a `read` delivered (none when it failed). -/
def ReadResult.data : ReadResult → List Byte
  | .bytes data => data
  | .error => []

/-- The buffer after the call: the bytes read overwrite its beginning. -/
def ReadResult.fill : ReadResult → List Byte → List Byte
  | .bytes data, buf => data ++ buf.drop data.length
  | .error, buf => buf

/-- The answers of the operating system during one iteration of the loop, in
the order in which the iteration asks for them. -/
structure Round where
  /-- the value of `mstime()` at line 101 -/
  t_start : Nat
  /-- the outcome of `read` at line 102 -/
  rd : ReadResult
  /-- the value returned by `write` at line 109 (the source drops it) -/
  wr : Int
  /-- the value of `mstime()` at line 111 -/
  t_end : Nat
  /-- the value of `mstime()` at line 121, read only when the iteration sleeps -/
  s_start : Nat
  /-- the value of `mstime()` at line 123, read only when the iteration sleeps -/
  s_end : Nat
  deriving DecidableEq, Repr

/-- The system calls of the loop that act on the outside world. -/
inductive Event
  /-- a call `read(STDIN_FILENO, buf, BUFSIZE)` and what it returned -/
  | read (r : ReadResult)
  /-- a call `write(STDOUT_FILENO, buf, count)`: the first `count` bytes of the
  buffer, as far as they are known (those stored by the reads so far), `count`
  as the `size_t` the call receives, and the value `write` returned -/
  | write (offered : List Byte) (count : Nat) (ret : Int)
  /-- a call `usleep(usec)` with the value of the argument expression
  `1000*delta` in `unsigned long`, before its conversion to the parameter type
  `useconds_t`, and the milliseconds `end - start` measured around the call
  (line 128) -/
  | usleep (usec : Nat) (took : Nat)
  deriving DecidableEq, Repr

/-- The local variables of `rw_loop` that live across iterations, and the
system calls issued so far (oldest first). -/
structure State where
  adjust : Nat
  buf : List Byte
  trace : List Event
  deriving DecidableEq, Repr

/-- The way one pass through the body of `while(1)` ends. -/
inductive Flow
  /-- the end of the body is reached: the loop goes round again -/
  | next (s : State)
  /-- the `break` at line 106 -/
  | brk (s : State)
  /-- the quotient `1000*n/rate` at line 117 is evaluated with `rate == 0` -/
  | divZero (s : State)
  deriving DecidableEq, Repr

/-- The state in which a pass through the body ends. -/
def Flow.state : Flow → State
  | .next s => s
  | .brk s => s
  | .divZero s => s

/-- The assignment `delta = 1000*n/rate - (end - start) + adjust` of line 117,
for `rate ≠ 0`.
`1000*n` is a signed product, converted to `unsigned long` for the division by
the unsigned `rate`; the rest is `unsigned long` arithmetic. -/
def delta (rate : Nat) (adjust : Nat) (r : Round) : Nat :=
  uadd (usub (toULong (1000 * r.rd.count) / rate) (usub r.t_end r.t_start)) adjust

/-- The body of the `while(1)` loop, lines 101-131. -/
def body (rate : Nat) (s : State) (r : Round) : Flow :=
  let n := r.rd.count
  let buf := r.rd.fill s.buf
  let tr := s.trace ++ [Event.read r.rd]
  if n = 0 then
    .brk { s with buf := buf, trace := tr }
  else
    let tr := tr ++ [Event.write (buf.take (toULong n)) (toULong n) r.wr]
    if rate = 0 then
      .divZero { s with buf := buf, trace := tr }
    else
      let d := delta rate s.adjust r
      if d > 100 then
        let took := usub r.s_end r.s_start
        .next { adjust := usub d took, buf := buf,
                trace := tr ++ [Event.usleep (1000 * d % ULONG) took] }
      else
        .next { adjust := uadd s.adjust d, buf := buf, trace := tr }

/-- The way a run of `rw_loop` ends. -/
inductive Outcome
  /-- the loop was left through `break` and the function returned -/
  | returned (s : State)
  /-- a division by zero was evaluated: the behaviour is undefined from there -/
  | divZero (s : State)
  /-- the script is used up and the loop waits in `read` -/
  | waiting (s : State)
  deriving DecidableEq, Repr

/-- The `while(1)` loop from a given state, against a script of rounds. -/
def loop (rate : Nat) : State → List Round → Outcome
  | s, [] => .waiting s
  | s, r :: rs =>
    match body rate s r with
    | .next s1 => loop rate s1 rs
    | .brk s1 => .returned s1
    | .divZero s1 => .divZero s1

/-- The state on entry to the loop: `adjust = 0` (line 98); nothing is known
of the buffer. -/
def State.init : State := { adjust := 0, buf := [], trace := [] }

/-- The function `void rw_loop(unsigned long rate)`, run against a script. -/
def rw_loop (rate : Nat) (script : List Round) : Outcome :=
  loop rate State.init script

/-- The state in which a run ends. -/
def Outcome.state : Outcome → State
  | .returned s => s
  | .divZero s => s
  | .waiting s => s

/-- The bytes that reached standard output: what each `write` accepted of the
bytes offered to it. -/
def accepted : List Event → List Byte
  | [] => []
  | .write offered _ ret :: es => offered.take ret.toNat ++ accepted es
  | _ :: es => accepted es

/-- The `usleep` arguments of a trace, in call order. -/
def sleeps : List Event → List Nat
  | [] => []
  | .usleep usec _ :: es => usec :: sleeps es
  | _ :: es => sleeps es

/-- The milliseconds spent in `usleep`, as measured by the loop. -/
def slept : List Event → Nat
  | [] => 0
  | .usleep _ took :: es => took + slept es
  | _ :: es => slept es

/-- A system call that is no sleep, or a sleep that took exactly the time asked
for (`usec` microseconds are `took` milliseconds). -/
def Event.exact : Event → Bool
  | .usleep usec took => usec == 1000 * took
  | _ => true

/-- Every sleep of the trace took exactly the time asked for. -/
def ExactSleeps (tr : List Event) : Prop :=
  ∀ e ∈ tr, e.exact = true

instance (tr : List Event) : Decidable (ExactSleeps tr) :=
  inferInstanceAs (Decidable (∀ e ∈ tr, e.exact = true))

/-- The trace without its `usleep` calls. -/
def ioCalls : List Event → List Event
  | [] => []
  | .usleep _ _ :: es => ioCalls es
  | e :: es => e :: ioCalls es

/-- The nominal time of a chunk, `1000*n/rate` of line 117. -/
def nominal (rate : Nat) (r : Round) : Nat :=
  toULong (1000 * r.rd.count) / rate

/-- The input cut into the chunks that `read` returns when all of it is
available at once: `BUFSIZE` bytes as long as that many remain, then the rest.
The first argument bounds the number of chunks. -/
def chunksOf : Nat → List Byte → List (List Byte)
  | 0, _ => []
  | k + 1, xs => if xs = [] then [] else xs.take BUFSIZE :: chunksOf k (xs.drop BUFSIZE)

/-- A round that delivers a chunk whose `write` accepts all of it, with a clock
that stands still. -/
def Round.quick (c : List Byte) : Round :=
  { t_start := 0, rd := .bytes c, wr := c.length, t_end := 0, s_start := 0, s_end := 0 }

/-- The script of `k` full buffers of zero bytes followed by the end of input,
with a clock that stands still. -/
def fullBuffers (k : Nat) : List Round :=
  List.replicate k (Round.quick (List.replicate BUFSIZE 0)) ++ [Round.quick []]

/-! ## The C library, as far as `parse_bytes` uses it

The program never calls `setlocale`, so the character functions are those of
the "C" locale and the radix character is `.`. -/

/-- The function `isspace` in the "C" locale: space, `\t`, `\n`, `\v`, `\f`, `\r`. -/
def isspace (c : Char) : Bool :=
  c == ' ' || c == '\t' || c == '\n' || c == '\x0b' || c == '\x0c' || c == '\r'

/-- The function `isdigit`: the decimal digits. -/
def isdigit (c : Char) : Bool :=
  c == '0' || c == '1' || c == '2' || c == '3' || c == '4' || c == '5' || c == '6' ||
    c == '7' || c == '8' || c == '9'

/-- The function `tolower` in the "C" locale: `A`..`Z` to `a`..`z`, every other character
to itself. -/
def tolower (c : Char) : Char := c.toLower

/-- The function `isxdigit`: the hexadecimal digits. -/
def isxdigit (c : Char) : Bool :=
  isdigit c || tolower c == 'a' || tolower c == 'b' || tolower c == 'c' ||
    tolower c == 'd' || tolower c == 'e' || tolower c == 'f'

/-- The characters of the `n-char-sequence` of `NAN(...)`: digits, letters and
the underscore. -/
def isnchar (c : Char) : Bool := c.isAlphanum || c == '_'

/-- The value of a decimal or hexadecimal digit. -/
def digitVal (c : Char) : Nat :=
  if isdigit c then c.toNat - 48 else (tolower c).toNat - 87

/-- The number written by a sequence of digits in the given base. -/
def natOfDigits (base : Nat) (ds : List Char) : Nat :=
  ds.foldl (fun acc c => base * acc + digitVal c) 0

/-- The number of binary digits of a number; the first argument bounds the
recursion. -/
def bitLengthAux : Nat → Nat → Nat
  | 0, _ => 0
  | k + 1, n => if n = 0 then 0 else bitLengthAux k (n / 2) + 1

/-- The number of binary digits of a number: `2 ^ (bitLength n - 1) ≤ n <
2 ^ bitLength n` for `n > 0`. -/
def bitLength (n : Nat) : Nat := bitLengthAux n n

/-- The values of the type `double` (IEEE 754 binary64).  A finite value is
`± m * 2 ^ e`; the two zeros differ in `neg` only, and the NaNs are one value. -/
inductive Double
  | finite (neg : Bool) (m : Nat) (e : Int)
  | inf (neg : Bool)
  | nan
  deriving DecidableEq, Repr

/-- The double nearest to `± num / den` (`den > 0`), ties to the even
significand: the rounding that `strtod` and the arithmetic of the processor
apply.  The significand has 53 bits, the exponent of its last bit is at least
`-1074`, and a result of `2 ^ 1024` or more is an infinity. -/
def Double.round (neg : Bool) (num den : Nat) : Double :=
  if num = 0 then .finite neg 0 0
  else
    let e0 : Int := (bitLength num : Int) - (bitLength den : Int)
    -- `⌊log₂ (num / den)⌋` is `e0` or `e0 - 1`
    let e : Int := if den * 2 ^ e0.toNat ≤ num * 2 ^ (-e0).toNat then e0 else e0 - 1
    -- the exponent of the last bit of the significand
    let p : Int := max (e - 52) (-1074)
    let n := num * 2 ^ (-p).toNat
    let d := den * 2 ^ p.toNat
    let q := n / d
    let r := n % d
    let m := if d < 2 * r ∨ (d = 2 * r ∧ q % 2 = 1) then q + 1 else q
    if 971 < p ∨ (p = 971 ∧ 2 ^ 53 ≤ m) then .inf neg else .finite neg m p

/-- The double nearest to `± m * base ^ ex`. -/
def Double.ofScaled (neg : Bool) (m base : Nat) (ex : Int) : Double :=
  Double.round neg (m * base ^ ex.toNat) (base ^ (-ex).toNat)

/-- The product of two doubles, rounded to the nearest double. -/
def Double.mul : Double → Double → Double
  | .nan, _ => .nan
  | _, .nan => .nan
  | .inf s, .inf t => .inf (s != t)
  | .inf s, .finite t m _ => if m = 0 then .nan else .inf (s != t)
  | .finite s m _, .inf t => if m = 0 then .nan else .inf (s != t)
  | .finite s m e, .finite t n f => Double.ofScaled (s != t) (m * n) 2 (e + f)

/-- The conversion `(unsigned long) x` of a double: the value is truncated
toward zero; the behaviour is undefined (`none`) when the truncated value is
not a value of `unsigned long`, which is the case for the infinities and NaN. -/
def Double.toULong : Double → Option Nat
  | .finite neg m e =>
    let t := m * 2 ^ e.toNat / 2 ^ (-e).toNat
    if (neg = true ∧ t ≠ 0) ∨ ULONG ≤ t then none else some t
  | _ => none

/-- An optional sign: whether it is `-`, and the rest of the string. -/
def scanSign (s : List Char) : Bool × List Char :=
  if s.head? = some '-' then (true, s.tail)
  else if s.head? = some '+' then (false, s.tail)
  else (false, s)

/-- A sequence of digits with an optional radix character, holding at least one
digit: the digits before the radix character, those after it, and the rest of
the string. -/
def scanMantissa (dig : Char → Bool) (s : List Char) :
    Option (List Char × List Char × List Char) :=
  if (s.dropWhile dig).head? = some '.' then
    if s.takeWhile dig = [] ∧ (s.dropWhile dig).tail.takeWhile dig = [] then none
    else some (s.takeWhile dig, (s.dropWhile dig).tail.takeWhile dig,
               (s.dropWhile dig).tail.dropWhile dig)
  else if s.takeWhile dig = [] then none
  else some (s.takeWhile dig, [], s.dropWhile dig)

/-- An optional exponent part: the marker (`e` or `p`, in either case), an
optional sign and decimal digits.  Without a digit nothing is read and the
exponent is 0. -/
def scanExponent (marker : Char) (s : List Char) : Int × List Char :=
  if s.head?.map tolower = some marker ∧ (scanSign s.tail).2.takeWhile isdigit ≠ [] then
    (if (scanSign s.tail).1 then -(natOfDigits 10 ((scanSign s.tail).2.takeWhile isdigit) : Int)
      else (natOfDigits 10 ((scanSign s.tail).2.takeWhile isdigit) : Int),
     (scanSign s.tail).2.dropWhile isdigit)
  else (0, s)

/-- The rest of the string after a word, compared without regard to case; the
word is given in lower case. -/
def scanWord : List Char → List Char → Option (List Char)
  | [], s => some s
  | _ :: _, [] => none
  | p :: ps, c :: s => if tolower c = p then scanWord ps s else none

/-- A decimal floating-point number without its sign. -/
def scanDecimal (neg : Bool) (s : List Char) : Option (Double × List Char) :=
  match scanMantissa isdigit s with
  | none => none
  | some (ip, fp, r) =>
    some (Double.ofScaled neg (natOfDigits 10 (ip ++ fp)) 10
            ((scanExponent 'e' r).1 - (fp.length : Int)),
          (scanExponent 'e' r).2)

/-- A hexadecimal floating-point number without its sign: `0x` or `0X`, then
hexadecimal digits with an optional radix character, then an optional binary
exponent. -/
def scanHex (neg : Bool) (s : List Char) : Option (Double × List Char) :=
  if s.head? = some '0' ∧ s.tail.head?.map tolower = some 'x' then
    match scanMantissa isxdigit s.tail.tail with
    | none => none
    | some (ip, fp, r) =>
      some (Double.ofScaled neg (natOfDigits 16 (ip ++ fp)) 2
              ((scanExponent 'p' r).1 - 4 * (fp.length : Int)),
            (scanExponent 'p' r).2)
  else none

/-- The word `INF` or `INFINITY`, in any case. -/
def scanInf (neg : Bool) (s : List Char) : Option (Double × List Char) :=
  match scanWord ['i', 'n', 'f'] s with
  | none => none
  | some t =>
    match scanWord ['i', 'n', 'i', 't', 'y'] t with
    | some u => some (.inf neg, u)
    | none => some (.inf neg, t)

/-- The word `NAN` or `NAN(n-char-sequence)`, in any case. -/
def scanNan (s : List Char) : Option (Double × List Char) :=
  match scanWord ['n', 'a', 'n'] s with
  | none => none
  | some t =>
    if t.head? = some '(' ∧ (t.tail.dropWhile isnchar).head? = some ')' then
      some (.nan, (t.tail.dropWhile isnchar).tail)
    else some (.nan, t)

/-- The number at the start of a string, after the sign: the longest of the
forms that `strtod` accepts. -/
def scanNumber (neg : Bool) (s : List Char) : Option (Double × List Char) :=
  match scanHex neg s with
  | some r => some r
  | none =>
    match scanDecimal neg s with
    | some r => some r
    | none =>
      match scanInf neg s with
      | some r => some r
      | none => scanNan s

/-- The function `strtod(nptr, &endptr)` of the C library (C99 7.20.1.3): white space,
an optional sign, then a decimal or hexadecimal floating-point number, an
infinity or a NaN.  The result is the value and the string at `endptr`, or
`none` when no conversion is performed (`endptr == nptr`). -/
def strtod (nptr : List Char) : Option (Double × List Char) :=
  scanNumber (scanSign (nptr.dropWhile isspace)).1 (scanSign (nptr.dropWhile isspace)).2

/-! ## The rate parser -/

/-- What a call `parse_bytes(val, &result)` does. -/
inductive Parsed
  /-- it returns 0 and leaves `*result` alone -/
  | fail
  /-- it returns 1 and has stored `rate` in `*result` -/
  | ok (rate : Nat)
  /-- it reaches the conversion of line 80 with a product that `unsigned long`
  cannot hold: the behaviour is undefined -/
  | undefined
  deriving DecidableEq, Repr

/-- The outcome of lines 80-81 for a product: the rate stored, or undefined
behaviour when the conversion is out of range. -/
def Parsed.ofProduct (x : Double) : Parsed :=
  match x.toULong with
  | some r => .ok r
  | none => .undefined

/-- The `switch` of lines 49-66 on `tolower(end[-1])`: the multiplier of a
suffix letter, or `none` for the `default` case. -/
def suffixMult (c : Char) : Option Double :=
  if tolower c = 'k' then some (.finite false 1024 0)
  else if tolower c = 'm' then some (.finite false 1048576 0)
  else if tolower c = 'g' then some (.finite false 1073741824 0)
  else if tolower c = 't' then some (.finite false 1099511627776 0)
  else none

/-- Lines 76-81: the call of `strtod` on the string that starts at `val`, the
test `val == endptr`, the product and its conversion. -/
def convert (str : List Char) (mult : Double) : Parsed :=
  match strtod str with
  | none => .fail
  | some (number, _) => Parsed.ofProduct (number.mul mult)

/-- The function `int parse_bytes(const char *val, unsigned long *result)`.  The argument is
the string without its terminating NUL.  The pointers `val` and `end` delimit
a window of the string: `w` below is the text between them. -/
def parse_bytes (val : List Char) : Parsed :=
  -- lines 37-41
  if val = ['i', 'n', 'f'] then .ok 0
  else
    -- lines 43-47: `end` moves left over white space
    let w := val.rdropWhile isspace
    match w.getLast? with
    | none => .fail
    | some last =>
      -- lines 49-66: a suffix letter moves `end` one more to the left
      let w1 := if (suffixMult last).isSome then w.dropLast else w
      let mult := (suffixMult last).getD (.finite false 1 0)
      -- lines 68-74: `val` moves right and `end` moves left over white space
      let w2 := w1.dropWhile isspace
      if w2.rdropWhile isspace = [] then .fail
      else
        -- `strtod` reads from `val` up to the terminating NUL, beyond `end`
        convert (w2 ++ val.drop w1.length) mult

/-- The text of an optional fractional part: the radix character and digits. -/
def fracText : Option (List Char) → List Char
  | none => []
  | some fp => '.' :: fp

/-- The text of a decimal number: the digits `ip`, and with `frac = some fp`
the radix character and the digits `fp`. -/
def decimalText (ip : List Char) (frac : Option (List Char)) : List Char :=
  ip ++ fracText frac

/-- The double nearest to the decimal number `ip.fp`, which is what `strtod`
returns for its text. -/
def decimalValue (ip : List Char) (frac : Option (List Char)) : Double :=
  Double.ofScaled false (natOfDigits 10 (ip ++ frac.getD [])) 10 (-((frac.getD []).length : Int))

/-- The text after a decimal number does not continue the number for `strtod`:
it is empty, or its first character is no digit, no second radix character, no
exponent marker, and no `x` after the single digit `0`. -/
def endsNumber (ip : List Char) (frac : Option (List Char)) (rest : List Char) : Bool :=
  match rest.head? with
  | none => true
  | some c =>
    !isdigit c && (c != '.' || frac.isSome) && tolower c != 'e' &&
      (tolower c != 'x' || ip != ['0'] || frac.isSome)

/-- The multiplier of a suffix as the specification gives it: 1 for no suffix,
`2 ^ 10`, `2 ^ 20`, `2 ^ 30`, `2 ^ 40` for `K`, `M`, `G`, `T` in either case. -/
def specMult (sfx : List Char) : Nat :=
  if sfx = ['K'] ∨ sfx = ['k'] then 2 ^ 10
  else if sfx = ['M'] ∨ sfx = ['m'] then 2 ^ 20
  else if sfx = ['G'] ∨ sfx = ['g'] then 2 ^ 30
  else if sfx = ['T'] ∨ sfx = ['t'] then 2 ^ 40
  else 1

/-- The text between `val` and `end` when line 73 is reached: the argument
without the white space at its end, without its suffix letter, and without the
white space on both sides of what is left. -/
def trimmed (val : List Char) : List Char :=
  match (val.rdropWhile isspace).getLast? with
  | none => []
  | some last =>
    ((if (suffixMult last).isSome then (val.rdropWhile isspace).dropLast
      else val.rdropWhile isspace).dropWhile isspace).rdropWhile isspace

/-- The multiplier that the last character before the trailing white space
selects: that of the suffix letter, or 1. -/
def multiplier (val : List Char) : Double :=
  match (val.rdropWhile isspace).getLast? with
  | none => .finite false 1 0
  | some last => (suffixMult last).getD (.finite false 1 0)

/-- The text begins with something that `strtod` converts: after an optional
sign, a digit, a radix character followed by a digit, or the letters `inf` or
`nan` in any case. -/
def startsNumber (s : List Char) : Bool :=
  (match (scanSign s).2.head? with
    | some c => isdigit c
    | none => false) ||
  ((scanSign s).2.head? == some '.' &&
    (match (scanSign s).2.tail.head? with
      | some c => isdigit c
      | none => false)) ||
  (scanWord ['i', 'n', 'f'] (scanSign s).2).isSome ||
  (scanWord ['n', 'a', 'n'] (scanSign s).2).isSome

/-- What a run of the program does. -/
inductive Exit
  /-- the function `main` returns the status -/
  | status (code : Nat)
  /-- the behaviour is undefined: a conversion out of range in `parse_bytes` or
  a division by zero in `rw_loop` -/
  | undefined
  /-- the program waits in `read` -/
  | waiting
  deriving DecidableEq, Repr

/-- The function `int main(int argc, char **argv)`, with the script of the copy
loop. -/
def main (argv : List (List Char)) (script : List Round) : Exit :=
  match argv with
  | [_, arg] =>
    match parse_bytes arg with
    | .fail => .status 1
    | .undefined => .undefined
    | .ok rate =>
      match rw_loop rate script with
      | .returned _ => .status 0
      | .divZero _ => .undefined
      | .waiting _ => .waiting
  | _ => .status 1

/-! ## Further observations of a run -/

/-- The outcomes of the `read` calls of a trace, in call order. -/
def readsOf : List Event → List ReadResult
  | [] => []
  | .read r :: es => r :: readsOf es
  | _ :: es => readsOf es

/-- The number of bytes that the reads of a trace delivered. -/
def bytesRead (tr : List Event) : Nat :=
  ((readsOf tr).map fun r => r.data.length).sum

/-- The number of `write` calls of a trace. -/
def writeCount : List Event → Nat
  | [] => 0
  | .write _ _ _ :: es => writeCount es + 1
  | _ :: es => writeCount es

/-- The number of values of `useconds_t`, the parameter type of `usleep`.  The
type comes from the system headers, not from the program: it is an
`unsigned int` of 32 bits on the LP64 targets (glibc, musl, the BSD
libraries). -/
def USECONDS : Nat := 2 ^ 32

/-- The microsecond counts that the `usleep` calls of a trace receive: the
values of the argument expressions, converted from `unsigned long` to
`useconds_t`. -/
def received (tr : List Event) : List Nat :=
  (sleeps tr).map fun usec => usec % USECONDS

/-- The magnitude of a double is below 1: it is finite and `m * 2 ^ e < 1`. -/
def Double.belowOne : Double → Bool
  | .finite _ m e => decide (m * 2 ^ e.toNat < 2 ^ (-e).toNat)
  | _ => false

/-- A character with the upper-case suffix letters `K`, `M`, `G`, `T` turned
into lower case, and every other character left as it is. -/
def foldSuffix (c : Char) : Char :=
  if c = 'K' then 'k' else if c = 'M' then 'm' else if c = 'G' then 'g'
  else if c = 'T' then 't' else c

/-! ## Properties of the copy loop -/

/-! ### Auxiliary facts -/

theorem usub_self (a : Nat) : usub a a = 0 := by
  unfold usub ULONG
  have h : a % 2 ^ 64 < 2 ^ 64 := Nat.mod_lt _ (by norm_num)
  omega

theorem usub_zero_of_lt {a : Nat} (h : a < ULONG) : usub a 0 = a := by
  unfold usub
  unfold ULONG at *
  omega

theorem uadd_of_lt {a b : Nat} (h : a + b < ULONG) : uadd a b = a + b := by
  unfold uadd
  exact Nat.mod_eq_of_lt h

theorem toULong_natCast {k : Nat} (h : k < ULONG) : toULong (k : Int) = k := by
  unfold toULong
  unfold ULONG at *
  omega

theorem accepted_append (a b : List Event) : accepted (a ++ b) = accepted a ++ accepted b := by
  induction a with
  | nil => rfl
  | cons e es ih => cases e <;> simp [accepted, ih]

theorem ioCalls_append (a b : List Event) : ioCalls (a ++ b) = ioCalls a ++ ioCalls b := by
  induction a with
  | nil => rfl
  | cons e es ih => cases e <;> simp [ioCalls, ih]

theorem slept_append (a b : List Event) : slept (a ++ b) = slept a + slept b := by
  induction a with
  | nil => simp [slept]
  | cons e es ih => cases e <;> simp [slept, ih, Nat.add_assoc]

/-- One iteration on a non-empty chunk at a non-zero rate: the chunk is read,
offered whole to one `write`, and the loop goes round again. -/
theorem body_chunk (rate : Nat) (hrate : 1 ≤ rate) (s : State) (r : Round) (c : List Byte)
    (hrd : r.rd = .bytes c) (hne : 1 ≤ c.length) (hlen : c.length ≤ BUFSIZE) :
    ∃ s1 es, body rate s r = .next s1 ∧
      s1.trace = s.trace ++ [.read (.bytes c), .write c c.length r.wr] ++ es ∧
      ioCalls es = [] ∧ accepted es = [] := by
  have hU : c.length < ULONG := by unfold ULONG; unfold BUFSIZE at hlen; omega
  have hn0 : ¬ ((c.length : Int) = 0) := by omega
  have hr0 : ¬ rate = 0 := by omega
  unfold body
  simp only [hrd, ReadResult.count, ReadResult.fill, hn0, hr0, if_false, toULong_natCast hU,
    List.take_left']
  split
  · exact ⟨_, [Event.usleep (1000 * delta rate s.adjust r % ULONG) (usub r.s_end r.s_start)],
      rfl, by simp, by simp [ioCalls], by simp [accepted]⟩
  · exact ⟨_, [], rfl, by simp, rfl, rfl⟩

/-- The iteration that reads the end of input leaves the loop. -/
theorem body_eof (rate : Nat) (s : State) (r : Round) (hrd : r.rd = .bytes []) :
    body rate s r = .brk { s with trace := s.trace ++ [.read (.bytes [])] } := by
  simp [body, hrd, ReadResult.count, ReadResult.fill]

theorem loop_transparent (rate : Nat) (hrate : 1 ≤ rate) (fin : Round) (rest : List Round)
    (hfin : fin.rd = .bytes []) :
    ∀ (rounds : List Round) (s0 : State),
      (∀ r ∈ rounds, 1 ≤ r.rd.data.length ∧ r.rd.data.length ≤ BUFSIZE ∧
        r.wr = (r.rd.data.length : Int)) →
      ∃ s, loop rate s0 (rounds ++ fin :: rest) = .returned s ∧
        accepted s.trace = accepted s0.trace ++ (rounds.map fun r => r.rd.data).flatten ∧
        ioCalls s.trace = ioCalls s0.trace ++
          (rounds.map fun r => [Event.read r.rd,
            Event.write r.rd.data r.rd.data.length r.rd.data.length]).flatten ++
          [Event.read (.bytes [])] := by
  intro rounds
  induction rounds with
  | nil =>
    intro s0 _
    refine ⟨{ s0 with trace := s0.trace ++ [.read (.bytes [])] }, ?_, ?_, ?_⟩
    · simp [loop, body_eof rate s0 fin hfin]
    · simp [accepted_append, accepted]
    · simp [ioCalls_append, ioCalls]
  | cons r rs ih =>
    intro s0 h
    obtain ⟨hne, hlen, hwr⟩ := h r (List.mem_cons_self _ _)
    obtain ⟨c, hrd⟩ : ∃ c, r.rd = .bytes c := by
      cases hr : r.rd with
      | bytes c => exact ⟨c, rfl⟩
      | error => simp [hr, ReadResult.data] at hne
    simp only [hrd, ReadResult.data] at hne hlen hwr
    obtain ⟨s1, es, hb, htr, hio, hacc⟩ := body_chunk rate hrate s0 r c hrd hne hlen
    obtain ⟨s, hs, ha, hi⟩ := ih s1 (fun r2 hr2 => h r2 (List.mem_cons_of_mem _ hr2))
    refine ⟨s, ?_, ?_, ?_⟩
    · simp [loop, hb, hs]
    · rw [ha, htr]
      simp [accepted_append, accepted, hacc, hrd, ReadResult.data, hwr]
    · rw [hi, htr]
      simp [ioCalls_append, ioCalls, hio, hrd, ReadResult.data, hwr]

/-- C2: at a rate of at least 1, when the input arrives as reads of 1 to
`BUFSIZE` bytes followed by a read of 0 bytes and every `write` accepts all it
is offered, `rw_loop` returns, the bytes accepted by the output are the bytes
read, in order, and the reads and writes alternate: each chunk is offered to one
`write`, whole, before the next `read`. -/
theorem rw_loop_transparent (rate : Nat) (hrate : 1 ≤ rate) (rounds : List Round)
    (fin : Round) (rest : List Round)
    (hchunk : ∀ r ∈ rounds, 1 ≤ r.rd.data.length ∧ r.rd.data.length ≤ BUFSIZE ∧
      r.wr = (r.rd.data.length : Int))
    (hfin : fin.rd = .bytes []) :
    ∃ s, rw_loop rate (rounds ++ fin :: rest) = .returned s ∧
      accepted s.trace = (rounds.map fun r => r.rd.data).flatten ∧
      ioCalls s.trace =
        (rounds.map fun r => [Event.read r.rd,
          Event.write r.rd.data r.rd.data.length r.rd.data.length]).flatten ++
        [Event.read (.bytes [])] := by
  obtain ⟨s, hs, ha, hi⟩ := loop_transparent rate hrate fin rest hfin rounds State.init hchunk
  exact ⟨s, hs, by simpa [State.init, accepted] using ha, by simpa [State.init, ioCalls] using hi⟩

/-- C2, at an input: two chunks `[7, 8]` and `[9]` at rate 1000. -/
theorem rw_loop_transparent_witness :
    ∃ s, rw_loop 1000 ([Round.quick [7, 8], Round.quick [9]] ++ Round.quick [] :: []) =
        .returned s ∧
      accepted s.trace =
        ([Round.quick [7, 8], Round.quick [9]].map fun r => r.rd.data).flatten ∧
      ioCalls s.trace =
        ([Round.quick [7, 8], Round.quick [9]].map fun r => [Event.read r.rd,
          Event.write r.rd.data r.rd.data.length r.rd.data.length]).flatten ++
        [Event.read (.bytes [])] :=
  rw_loop_transparent 1000 (by decide) [Round.quick [7, 8], Round.quick [9]] (Round.quick []) []
    (by decide) rfl
/-- The trace only grows during one iteration. -/
theorem body_trace_prefix (rate : Nat) (s : State) (r : Round) :
    ∃ es, (body rate s r).state.trace = s.trace ++ es := by
  unfold body
  simp only []
  split_ifs
  · exact ⟨_, rfl⟩
  · exact ⟨_, by simp only [Flow.state, List.append_assoc]; rfl⟩
  · exact ⟨_, by simp only [Flow.state, List.append_assoc]; rfl⟩
  · exact ⟨_, by simp only [Flow.state, List.append_assoc]; rfl⟩

/-- The trace only grows during a run. -/
theorem loop_trace_prefix (rate : Nat) :
    ∀ (rs : List Round) (s : State), ∃ es, (loop rate s rs).state.trace = s.trace ++ es := by
  intro rs
  induction rs with
  | nil => intro s; exact ⟨[], by simp [loop, Outcome.state]⟩
  | cons r rs ih =>
    intro s
    obtain ⟨e1, h1⟩ := body_trace_prefix rate s r
    cases hf : body rate s r with
    | next t =>
      obtain ⟨e2, h2⟩ := ih t
      rw [hf] at h1
      simp only [Flow.state] at h1
      exact ⟨e1 ++ e2, by simp only [loop, hf, h2, h1, List.append_assoc]⟩
    | brk t =>
      rw [hf] at h1
      exact ⟨e1, by simpa [loop, hf, Outcome.state, Flow.state] using h1⟩
    | divZero t =>
      rw [hf] at h1
      exact ⟨e1, by simpa [loop, hf, Outcome.state, Flow.state] using h1⟩

/-- One iteration on a non-empty chunk read and written in no measured time, at
a non-zero rate and with a small `adjust`: either the loop sleeps for
`delta = 1000*n/rate + adjust`, or it adds `delta` to `adjust`. -/
theorem body_instant (rate : Nat) (hrate : 1 ≤ rate) (s : State) (r : Round)
    (hne : 1 ≤ r.rd.data.length) (hlen : r.rd.data.length ≤ BUFSIZE)
    (hclock : r.t_end = r.t_start) (hadj : s.adjust ≤ 200) :
    ∃ s1, body rate s r = .next s1 ∧
      ((100 < nominal rate r + s.adjust ∧
          s1.adjust = usub (nominal rate r + s.adjust) (usub r.s_end r.s_start) ∧
          ∃ es, s1.trace = s.trace ++ es ++
            [.usleep (1000 * (nominal rate r + s.adjust)) (usub r.s_end r.s_start)] ∧
            slept es = 0 ∧ ExactSleeps es) ∨
       (nominal rate r + s.adjust ≤ 100 ∧ s1.adjust = s.adjust + (nominal rate r + s.adjust) ∧
          ∃ es, s1.trace = s.trace ++ es ∧ slept es = 0 ∧ ExactSleeps es)) := by
  obtain ⟨c, hrd⟩ : ∃ c, r.rd = .bytes c := by
    cases hr : r.rd with
    | bytes c => exact ⟨c, rfl⟩
    | error => simp [hr, ReadResult.data] at hne
  simp only [hrd, ReadResult.data] at hne hlen
  have hB : c.length ≤ 16384 := hlen
  have hcount : (1000 : Int) * (c.length : Int) = ((1000 * c.length : Nat) : Int) := by
    push_cast; ring
  have hnomle : 1000 * c.length / rate ≤ 16384000 :=
    le_trans (Nat.div_le_self _ _) (by omega)
  have hnom : nominal rate r = 1000 * c.length / rate := by
    simp only [nominal, hrd, ReadResult.count, hcount]
    rw [toULong_natCast (by unfold ULONG; omega)]
  have hd : delta rate s.adjust r = nominal rate r + s.adjust := by
    have h1 : delta rate s.adjust r
        = uadd (usub (nominal rate r) (usub r.t_end r.t_start)) s.adjust := rfl
    rw [h1, hclock, usub_self, usub_zero_of_lt (by rw [hnom]; unfold ULONG; omega),
      uadd_of_lt (by rw [hnom]; unfold ULONG; omega)]
  have hn0 : ¬ ((c.length : Int) = 0) := by omega
  have hr0 : ¬ rate = 0 := by omega
  have hmod : 1000 * (nominal rate r + s.adjust) % ULONG = 1000 * (nominal rate r + s.adjust) :=
    Nat.mod_eq_of_lt (by rw [hnom]; unfold ULONG; omega)
  have hadd : uadd s.adjust (nominal rate r + s.adjust) = s.adjust + (nominal rate r + s.adjust) :=
    uadd_of_lt (by rw [hnom]; unfold ULONG; omega)
  unfold body
  simp only [hd]
  simp only [hrd, ReadResult.count, hn0, hr0, if_false]
  by_cases hgt : nominal rate r + s.adjust > 100
  · rw [if_pos hgt, hmod]
    refine ⟨_, rfl, Or.inl ⟨hgt, rfl, [Event.read (.bytes c),
      Event.write (List.take (toULong ↑c.length) ((ReadResult.bytes c).fill s.buf))
        (toULong ↑c.length) r.wr], ?_, ?_, ?_⟩⟩
    · simp only [List.append_assoc, List.singleton_append, List.cons_append, List.nil_append]
    · simp [slept]
    · simp [ExactSleeps, Event.exact]
  · rw [if_neg hgt, hadd]
    refine ⟨_, rfl, Or.inr ⟨by omega, rfl, [Event.read (.bytes c),
      Event.write (List.take (toULong ↑c.length) ((ReadResult.bytes c).fill s.buf))
        (toULong ↑c.length) r.wr], ?_, ?_, ?_⟩⟩
    · simp only [List.append_assoc, List.singleton_append, List.cons_append, List.nil_append]
    · simp [slept]
    · simp [ExactSleeps, Event.exact]

/-- At a non-zero rate the loop returns when the reads deliver non-empty chunks
and then the end of input. -/
theorem loop_returns (rate : Nat) (hrate : 1 ≤ rate) (fin : Round) (rest : List Round)
    (hfin : fin.rd = .bytes []) :
    ∀ (rounds : List Round) (s0 : State),
      (∀ r ∈ rounds, 1 ≤ r.rd.data.length ∧ r.rd.data.length ≤ BUFSIZE) →
      ∃ s, loop rate s0 (rounds ++ fin :: rest) = .returned s := by
  intro rounds
  induction rounds with
  | nil =>
    intro s0 _
    exact ⟨{ s0 with trace := s0.trace ++ [.read (.bytes [])] },
      by simp [loop, body_eof rate s0 fin hfin]⟩
  | cons r rs ih =>
    intro s0 h
    obtain ⟨hne, hlen⟩ := h r (List.mem_cons_self _ _)
    obtain ⟨c, hrd⟩ : ∃ c, r.rd = .bytes c := by
      cases hr : r.rd with
      | bytes c => exact ⟨c, rfl⟩
      | error => simp [hr, ReadResult.data] at hne
    simp only [hrd, ReadResult.data] at hne hlen
    obtain ⟨s1, _, hb, _⟩ := body_chunk rate hrate s0 r c hrd hne hlen
    obtain ⟨s, hs⟩ := ih s1 (fun r2 hr2 => h r2 (List.mem_cons_of_mem _ hr2))
    exact ⟨s, by simp [loop, hb, hs]⟩

/-- The invariant behind the throughput bound: with a clock that stands still
during reads and writes and sleeps that take the time asked for, the time slept
plus `adjust` covers the nominal times, and `adjust` stays at or below 200. -/
theorem loop_instant_invariant (rate : Nat) (hrate : 1 ≤ rate) (fin : Round)
    (rest : List Round) (hfin : fin.rd = .bytes []) :
    ∀ (rounds : List Round) (s0 s : State),
      (∀ r ∈ rounds, 1 ≤ r.rd.data.length ∧ r.rd.data.length ≤ BUFSIZE ∧
        r.t_end = r.t_start) →
      s0.adjust ≤ 200 →
      loop rate s0 (rounds ++ fin :: rest) = .returned s →
      ExactSleeps s.trace →
      s.adjust ≤ 200 ∧
        slept s0.trace + s0.adjust + (rounds.map (nominal rate)).sum
          ≤ slept s.trace + s.adjust := by
  intro rounds
  induction rounds with
  | nil =>
    intro s0 s _ hadj hrun _
    simp only [List.nil_append, loop, body_eof rate s0 fin hfin] at hrun
    injection hrun with hrun
    subst hrun
    simp [slept_append, slept, hadj]
  | cons r rs ih =>
    intro s0 s h hadj hrun hexact
    obtain ⟨hne, hlen, hclock⟩ := h r (List.mem_cons_self _ _)
    obtain ⟨s1, hb, hcase⟩ := body_instant rate hrate s0 r hne hlen hclock hadj
    have hrun1 : loop rate s1 (rs ++ fin :: rest) = .returned s := by
      simpa [loop, hb] using hrun
    obtain ⟨tl, htl⟩ := loop_trace_prefix rate (rs ++ fin :: rest) s1
    rw [hrun1] at htl
    simp only [Outcome.state] at htl
    have hrest : ∀ r2 ∈ rs, 1 ≤ r2.rd.data.length ∧ r2.rd.data.length ≤ BUFSIZE ∧
        r2.t_end = r2.t_start := fun r2 hr2 => h r2 (List.mem_cons_of_mem _ hr2)
    rcases hcase with ⟨_, hadj1, es, htr, hes, _⟩ | ⟨hle, hadj1, es, htr, hes, _⟩
    · have hmem : Event.usleep (1000 * (nominal rate r + s0.adjust))
          (usub r.s_end r.s_start) ∈ s.trace := by
        rw [htl, htr]; simp
      have htook : usub r.s_end r.s_start = nominal rate r + s0.adjust := by
        have := hexact _ hmem
        simp only [Event.exact, beq_iff_eq] at this
        omega
      rw [htook, usub_self] at hadj1
      obtain ⟨h1, h2⟩ := ih s1 s hrest (by omega) hrun1 hexact
      refine ⟨h1, ?_⟩
      rw [htr, slept_append, slept_append, hes, hadj1] at h2
      simp only [slept, htook, List.map_cons, List.sum_cons] at h2 ⊢
      omega
    · obtain ⟨h1, h2⟩ := ih s1 s hrest (by omega) hrun1 hexact
      refine ⟨h1, ?_⟩
      rw [htr, slept_append, hes, hadj1] at h2
      simp only [List.map_cons, List.sum_cons] at h2 ⊢
      omega

/-- The nominal times of chunks of at most `BUFSIZE` bytes fall short of the
exact times `1000 * n / rate` by less than one millisecond per chunk. -/
theorem nominal_sum_bound (rate : Nat) (hrate : 1 ≤ rate) :
    ∀ rounds : List Round,
      (∀ r ∈ rounds, 1 ≤ r.rd.data.length ∧ r.rd.data.length ≤ BUFSIZE) →
      1000 * (rounds.map fun r => r.rd.data.length).sum + rounds.length
        ≤ ((rounds.map (nominal rate)).sum + rounds.length) * rate := by
  intro rounds
  induction rounds with
  | nil => intro _; simp
  | cons r rs ih =>
    intro h
    obtain ⟨hne, hlen⟩ := h r (List.mem_cons_self _ _)
    have ih1 := ih (fun r2 hr2 => h r2 (List.mem_cons_of_mem _ hr2))
    obtain ⟨c, hrd⟩ : ∃ c, r.rd = .bytes c := by
      cases hr : r.rd with
      | bytes c => exact ⟨c, rfl⟩
      | error => simp [hr, ReadResult.data] at hne
    simp only [hrd, ReadResult.data] at hne hlen
    have hB : c.length ≤ 16384 := hlen
    have hcount : (1000 : Int) * (c.length : Int) = ((1000 * c.length : Nat) : Int) := by
      push_cast; ring
    have hnom : nominal rate r = 1000 * c.length / rate := by
      simp only [nominal, hrd, ReadResult.count, hcount]
      rw [toULong_natCast (by unfold ULONG; omega)]
    have hdiv : 1000 * c.length < 1000 * c.length / rate * rate + rate :=
      Nat.lt_div_mul_add (by omega)
    have hdata : r.rd.data.length = c.length := by rw [hrd]; rfl
    simp only [List.map_cons, List.sum_cons, List.length_cons, hdata, hnom]
    have e1 : (1000 * c.length / rate + (rs.map (nominal rate)).sum + (rs.length + 1)) * rate
        = 1000 * c.length / rate * rate + rate
          + ((rs.map (nominal rate)).sum + rs.length) * rate := by ring
    rw [e1]
    omega

/-- The chunks of an input: each has 1 to `BUFSIZE` bytes, together they have
the bytes of the input, and there are `⌈length / BUFSIZE⌉` of them. -/
theorem chunksOf_spec : ∀ (k : Nat) (xs : List Byte), xs.length ≤ k →
    (∀ c ∈ chunksOf k xs, 1 ≤ c.length ∧ c.length ≤ BUFSIZE) ∧
      ((chunksOf k xs).map List.length).sum = xs.length ∧
      (chunksOf k xs).length = (xs.length + BUFSIZE - 1) / BUFSIZE := by
  intro k
  induction k with
  | zero =>
    intro xs h
    have : xs = [] := List.length_eq_zero.mp (by omega)
    subst this
    simp [chunksOf, BUFSIZE]
  | succ k ih =>
    intro xs h
    by_cases hx : xs = []
    · subst hx; simp [chunksOf, BUFSIZE]
    · have hpos : 1 ≤ xs.length := Nat.one_le_iff_ne_zero.mpr (by simpa using hx)
      have hdrop : (xs.drop BUFSIZE).length ≤ k := by
        simp only [List.length_drop, BUFSIZE]; omega
      obtain ⟨h1, h2, h3⟩ := ih (xs.drop BUFSIZE) hdrop
      simp only [BUFSIZE, List.length_drop] at h1 h2 h3
      simp only [chunksOf, hx, if_false]
      refine ⟨?_, ?_, ?_⟩
      · intro c hc
        rcases List.mem_cons.mp hc with rfl | hc
        · simp only [List.length_take, BUFSIZE]; omega
        · exact h1 c hc
      · simp only [List.map_cons, List.sum_cons, h2, List.length_take, List.length_drop,
          BUFSIZE]
        omega
      · simp only [List.length_cons, h3, List.length_drop, BUFSIZE]
        omega

theorem exactSleeps_append (a b : List Event) :
    ExactSleeps (a ++ b) ↔ ExactSleeps a ∧ ExactSleeps b := by
  simp only [ExactSleeps, List.mem_append]
  constructor
  · intro h; exact ⟨fun e he => h e (Or.inl he), fun e he => h e (Or.inr he)⟩
  · rintro ⟨h1, h2⟩ e (he | he)
    · exact h1 e he
    · exact h2 e he

/-- C1 as amended: at a rate of at least 1, for an input of `L` bytes that the
reads deliver at once (`BUFSIZE` bytes each while that many remain) with no
time measured between `t_start` and `t_end` and with sleeps that take exactly
the time asked for, `rw_loop` returns and the milliseconds `D` it slept satisfy
`D > 1000 * L / rate - (200 + ⌈L / BUFSIZE⌉)`: the shortfall is at most twice
the 100 ms threshold plus one millisecond for each chunk read. -/
theorem rw_loop_sleeps_enough (rate : Nat) (hrate : 1 ≤ rate) (xs : List Byte)
    (rounds : List Round) (fin : Round) (rest : List Round)
    (hreads : rounds.map (fun r => r.rd) = (chunksOf xs.length xs).map ReadResult.bytes)
    (hclock : ∀ r ∈ rounds, r.t_end = r.t_start)
    (hfin : fin.rd = .bytes [])
    (hexact : ExactSleeps (rw_loop rate (rounds ++ fin :: rest)).state.trace) :
    ∃ s, rw_loop rate (rounds ++ fin :: rest) = .returned s ∧
      1000 * xs.length
        < (slept s.trace + (200 + (xs.length + BUFSIZE - 1) / BUFSIZE)) * rate := by
  obtain ⟨hc1, hc2, hc3⟩ := chunksOf_spec xs.length xs le_rfl
  have hdata : rounds.map (fun r => r.rd.data) = chunksOf xs.length xs := by
    have := congrArg (List.map ReadResult.data) hreads
    simpa [List.map_map, Function.comp_def, ReadResult.data] using this
  have hbound : ∀ r ∈ rounds, 1 ≤ r.rd.data.length ∧ r.rd.data.length ≤ BUFSIZE := by
    intro r hr
    exact hc1 _ (hdata ▸ List.mem_map_of_mem (fun r => r.rd.data) hr)
  have hlens : (rounds.map fun r => r.rd.data.length).sum = xs.length := by
    rw [← hc2, ← hdata, List.map_map]; rfl
  have hcount : rounds.length = (xs.length + BUFSIZE - 1) / BUFSIZE := by
    rw [← hc3, ← hdata, List.length_map]
  obtain ⟨s, hs⟩ := loop_returns rate hrate fin rest hfin rounds State.init hbound
  have hs1 : rw_loop rate (rounds ++ fin :: rest) = .returned s := hs
  rw [hs1] at hexact
  obtain ⟨hadj, hinv⟩ := loop_instant_invariant rate hrate fin rest hfin rounds State.init s
    (fun r hr => ⟨(hbound r hr).1, (hbound r hr).2, hclock r hr⟩) (by simp [State.init]) hs
    hexact
  have hnom := nominal_sum_bound rate hrate rounds hbound
  refine ⟨s, hs1, ?_⟩
  simp only [State.init, slept, Nat.zero_add] at hinv
  rw [hlens, hcount] at hnom
  rw [← hcount]
  have hmono : ((rounds.map (nominal rate)).sum + rounds.length) * rate
      ≤ (slept s.trace + 200 + rounds.length) * rate :=
    Nat.mul_le_mul_right _ (by omega)
  have e2 : (slept s.trace + (200 + rounds.length)) * rate
      = (slept s.trace + 200 + rounds.length) * rate := by ring
  rw [e2]
  rw [← hcount] at hnom
  rcases Nat.eq_zero_or_pos rounds.length with h0 | hpos
  · have hx : xs.length = 0 := by
      have : rounds = [] := List.length_eq_zero.mp h0
      rw [← hlens, this]; rfl
    rw [hx, h0]
    have : 0 < (slept s.trace + 200) * rate := Nat.mul_pos (by omega) (by omega)
    simpa using this
  · omega

/-- C1 as amended, at an input: five bytes at rate 10 are read in one chunk and
the loop sleeps 500 ms. -/
theorem rw_loop_sleeps_enough_witness :
    ∃ s, rw_loop 10 ([{ Round.quick [1, 2, 3, 4, 5] with s_end := 500 }] ++
        Round.quick [] :: []) = .returned s ∧
      1000 * [1, 2, 3, 4, 5].length
        < (slept s.trace + (200 + ([1, 2, 3, 4, 5].length + BUFSIZE - 1) / BUFSIZE)) * 10 :=
  rw_loop_sleeps_enough 10 (by decide) [1, 2, 3, 4, 5]
    [{ Round.quick [1, 2, 3, 4, 5] with s_end := 500 }] (Round.quick []) []
    (by decide) (by decide) rfl (by decide)

/-- At rate 32768000 a full buffer has the nominal time `16384000 / 32768000 = 0`. -/
theorem nominal_fullBuffer :
    nominal 32768000 (Round.quick (List.replicate BUFSIZE 0)) = 0 := by
  simp only [nominal, Round.quick, ReadResult.count, List.length_replicate, BUFSIZE]
  decide

/-- At rate 32768000 the loop copies any number of full buffers without a sleep. -/
theorem loop_fullBuffers : ∀ (k : Nat) (s0 : State), s0.adjust = 0 → ExactSleeps s0.trace →
    ∃ s, loop 32768000 s0 (fullBuffers k) = .returned s ∧ slept s.trace = slept s0.trace ∧
      ExactSleeps s.trace := by
  intro k
  induction k with
  | zero =>
    intro s0 _ hex
    refine ⟨{ s0 with trace := s0.trace ++ [.read (.bytes [])] }, ?_, ?_, ?_⟩
    · simp [fullBuffers, loop, body_eof 32768000 s0 (Round.quick []) rfl]
    · simp [slept_append, slept]
    · exact (exactSleeps_append _ _).mpr ⟨hex, by simp [ExactSleeps, Event.exact]⟩
  | succ k ih =>
    intro s0 hadj hex
    obtain ⟨s1, hb, hcase⟩ := body_instant 32768000 (by decide) s0
      (Round.quick (List.replicate BUFSIZE 0))
      (by simp only [Round.quick, ReadResult.data, List.length_replicate, BUFSIZE]; omega)
      (by simp only [Round.quick, ReadResult.data, List.length_replicate]; exact le_rfl)
      rfl (by omega)
    rw [nominal_fullBuffer, hadj] at hcase
    rcases hcase with ⟨h, _⟩ | ⟨_, hadj1, es, htr, hes, hexs⟩
    · omega
    · obtain ⟨s, hs, hsl, hex1⟩ := ih s1 (by omega)
        (by rw [htr]; exact (exactSleeps_append _ _).mpr ⟨hex, hexs⟩)
      refine ⟨s, ?_, ?_, hex1⟩
      · have : fullBuffers (k + 1) = Round.quick (List.replicate BUFSIZE 0) :: fullBuffers k := by
          simp only [fullBuffers, List.replicate_succ, List.cons_append]
        rw [this]
        simp [loop, hb, hs]
      · rw [hsl, htr, slept_append, hes]; rfl

/-- The reads of `fullBuffers k` are the chunks of an input of `k * BUFSIZE`
zero bytes, followed by the end of input. -/
theorem fullBuffers_reads (k : Nat) :
    (fullBuffers k).map (fun r => r.rd) =
      (chunksOf (k * BUFSIZE) (List.replicate (k * BUFSIZE) 0)).map ReadResult.bytes
        ++ [ReadResult.bytes []] := by
  have h : ∀ k f : Nat, chunksOf (k + f) (List.replicate (k * BUFSIZE) 0)
      = List.replicate k (List.replicate BUFSIZE 0) := by
    intro k
    induction k with
    | zero =>
      intro f
      rw [Nat.zero_mul, List.replicate_zero, List.replicate_zero]
      cases f with
      | zero => rfl
      | succ f => simp only [Nat.zero_add, chunksOf, if_true]
    | succ k ih =>
      intro f
      have e : k + 1 + f = (k + f) + 1 := by omega
      have hne : List.replicate ((k + 1) * BUFSIZE) 0 ≠ ([] : List Byte) := by
        simp [BUFSIZE]
      have ht : List.take BUFSIZE (List.replicate ((k + 1) * BUFSIZE) (0 : Byte))
          = List.replicate BUFSIZE 0 := by
        have hm : min BUFSIZE ((k + 1) * BUFSIZE) = BUFSIZE := by rw [Nat.succ_mul]; omega
        rw [List.take_replicate, hm]
      have hd : List.drop BUFSIZE (List.replicate ((k + 1) * BUFSIZE) (0 : Byte))
          = List.replicate (k * BUFSIZE) 0 := by
        have hm : (k + 1) * BUFSIZE - BUFSIZE = k * BUFSIZE := by rw [Nat.succ_mul]; omega
        rw [List.drop_replicate, hm]
      rw [e, chunksOf, if_neg hne, ht, hd, ih f, List.replicate_succ]
  have hk : k * BUFSIZE = k + k * (BUFSIZE - 1) := by
    simp only [BUFSIZE]; omega
  have h1 := h k (k * (BUFSIZE - 1))
  rw [← hk] at h1
  rw [h1]
  simp [fullBuffers, Round.quick, List.map_replicate]

/-- C1, refuted: at rate 32768000 an input of `k` full buffers, delivered at
once, is copied without any sleep, so the time slept is 0 for every length
`L = k * BUFSIZE` while `1000 * L / rate = k / 2` grows without bound: no
constant `eps` gives `1000 * L / rate ≤ D + eps` for all `L`. -/
theorem throughput_bound_has_no_constant :
    (∀ k, (fullBuffers k).map (fun r => r.rd) =
        (chunksOf (k * BUFSIZE) (List.replicate (k * BUFSIZE) 0)).map ReadResult.bytes
          ++ [ReadResult.bytes []]) ∧
      (∀ k, ∃ s, rw_loop 32768000 (fullBuffers k) = .returned s ∧ slept s.trace = 0 ∧
        ExactSleeps s.trace) ∧
      ¬ ∃ eps : Nat, ∀ k s, rw_loop 32768000 (fullBuffers k) = .returned s →
        1000 * (k * BUFSIZE) ≤ (slept s.trace + eps) * 32768000 := by
  have hrun : ∀ k, ∃ s, rw_loop 32768000 (fullBuffers k) = .returned s ∧ slept s.trace = 0 ∧
      ExactSleeps s.trace := by
    intro k
    obtain ⟨s, hs, hsl, hex⟩ := loop_fullBuffers k State.init rfl
      (by simp [ExactSleeps, State.init])
    exact ⟨s, hs, by simpa [State.init, slept] using hsl, hex⟩
  refine ⟨fullBuffers_reads, hrun, ?_⟩
  rintro ⟨eps, h⟩
  obtain ⟨s, hs, hsl, _⟩ := hrun (2 * (eps + 1))
  have := h _ s hs
  rw [hsl] at this
  simp only [BUFSIZE] at this
  omega
/-- C3: with rate 0 and a one-byte input the loop writes the byte and then
evaluates `1000*n/rate` with `rate == 0`: it does not return. -/
theorem rw_loop_rate_zero_divides_by_zero :
    rw_loop 0 [Round.quick [65], Round.quick []] =
      .divZero { adjust := 0, buf := [65],
                 trace := [.read (.bytes [65]), .write [65] 1 1] } := by
  decide

/-- C8: when `write` accepts one of the two bytes offered, the loop issues no
second `write` and goes on to the next `read`: one byte reaches the output. -/
theorem rw_loop_short_write_drops_bytes :
    (rw_loop 1000 [{ Round.quick [1, 2] with wr := 1 }, Round.quick []]).state.trace =
        [.read (.bytes [1, 2]), .write [1, 2] 2 1, .read (.bytes [])] ∧
      accepted (rw_loop 1000 [{ Round.quick [1, 2] with wr := 1 }, Round.quick []]).state.trace
        = [1] := by
  decide

/-- C9: at rate 1000 two chunks of ten bytes, read in no time, have a nominal
time of 10 ms each and no sleep is taken, yet `adjust` is 30 after the second
iteration: the carry of the first iteration is counted twice. -/
theorem rw_loop_adjust_counts_carry_twice :
    nominal 1000 (Round.quick (List.replicate 10 0)) = 10 ∧
      (rw_loop 1000 [Round.quick (List.replicate 10 0)]).state.adjust = 10 ∧
      (rw_loop 1000 [Round.quick (List.replicate 10 0),
                     Round.quick (List.replicate 10 0)]).state.adjust = 30 ∧
      slept (rw_loop 1000 [Round.quick (List.replicate 10 0),
                           Round.quick (List.replicate 10 0)]).state.trace = 0 := by
  decide

/-! ## The floating-point model at known values -/

/-- The rounding to a double at known values: `1.5` is exact, `0.1` is
`0x1.999999999999ap-4`, the tie `2 ^ 53 + 1` goes to the even significand
`2 ^ 52` (times 2), `2 ^ 53 + 3` goes up to `2 ^ 53 + 4`, and `10 ^ 23` rounds
down to `5960464477539062 * 2 ^ 24`. -/
theorem double_round_values :
    Double.round false 3 2 = .finite false 6755399441055744 (-52) ∧
      Double.round false 1 10 = .finite false 7205759403792794 (-56) ∧
      Double.round false (2 ^ 53 + 1) 1 = .finite false 4503599627370496 1 ∧
      Double.round false (2 ^ 53 + 3) 1 = .finite false 4503599627370498 1 ∧
      Double.round false (10 ^ 23) 1 = .finite false 5960464477539062 24 := by
  decide

/-! ## Properties of the rate parser -/

theorem isspace_cases {c : Char} (h : isspace c = true) :
    c = ' ' ∨ c = '\t' ∨ c = '\n' ∨ c = '\x0b' ∨ c = '\x0c' ∨ c = '\r' := by
  simpa [isspace, or_assoc] using h

theorem isdigit_cases {c : Char} (h : isdigit c = true) :
    c = '0' ∨ c = '1' ∨ c = '2' ∨ c = '3' ∨ c = '4' ∨ c = '5' ∨ c = '6' ∨ c = '7' ∨
      c = '8' ∨ c = '9' := by
  simpa [isdigit, or_assoc] using h

theorem isspace_of_isdigit {c : Char} (h : isdigit c = true) : isspace c = false := by
  rcases isdigit_cases h with rfl | rfl | rfl | rfl | rfl | rfl | rfl | rfl | rfl | rfl <;> decide

theorem suffixMult_of_isdigit {c : Char} (h : isdigit c = true) : suffixMult c = none := by
  rcases isdigit_cases h with rfl | rfl | rfl | rfl | rfl | rfl | rfl | rfl | rfl | rfl <;> decide

theorem suffixMult_of_isspace {c : Char} (h : isspace c = true) : suffixMult c = none := by
  rcases isspace_cases h with rfl | rfl | rfl | rfl | rfl | rfl <;> decide

/-- Dropping at the front passes over an appended string when the first one
holds an element that stops it. -/
theorem dropWhile_append_of_stop {p : Char → Bool} {a : List Char} (b : List Char)
    (h : ∃ x ∈ a, p x = false) : (a ++ b).dropWhile p = a.dropWhile p ++ b := by
  induction a with
  | nil => simp at h
  | cons x xs ih =>
    by_cases hx : p x = true
    · obtain ⟨y, hy, hpy⟩ := h
      rcases List.mem_cons.mp hy with rfl | hy
      · simp [hx] at hpy
      · simp only [List.cons_append, List.dropWhile_cons_of_pos hx]
        exact ih ⟨y, hy, hpy⟩
    · simp only [List.cons_append, List.dropWhile_cons_of_neg hx]

/-- A string whose first character is no white space is read by `strtod` like
the string with white space before it. -/
theorem strtod_dropWhile (s : List Char) : strtod (s.dropWhile isspace) = strtod s := by
  simp only [strtod, List.dropWhile_idempotent]

/-- The characterisation of `parse_bytes`: apart from the literal `inf`, the
call fails when nothing is left between `val` and `end`, and otherwise
converts the number that `strtod` finds at the start of the whole argument,
with the multiplier of the suffix letter. -/
theorem parse_bytes_eq (val : List Char) (h : val ≠ ['i', 'n', 'f']) :
    parse_bytes val = if trimmed val = [] then .fail else convert val (multiplier val) := by
  unfold parse_bytes trimmed multiplier
  rw [if_neg h]
  dsimp only
  cases hl : (val.rdropWhile isspace).getLast? with
  | none => simp
  | some last =>
    dsimp only
    generalize hw1 : (if (suffixMult last).isSome = true then (val.rdropWhile isspace).dropLast
      else val.rdropWhile isspace) = w1
    by_cases hb : (w1.dropWhile isspace).rdropWhile isspace = []
    · rw [if_pos hb, if_pos hb]
    · rw [if_neg hb, if_neg hb]
      have hpre : w1 <+: val := by
        rw [← hw1]
        split
        · exact (List.dropLast_prefix _).trans (List.rdropWhile_prefix _ _)
        · exact List.rdropWhile_prefix _ _
      have hval : w1 ++ val.drop w1.length = val := List.prefix_iff_eq_append.mp hpre
      have hex : ∃ x ∈ w1, isspace x = false := by
        by_contra hcon
        apply hb
        rw [List.rdropWhile_eq_nil_iff]
        intro x hx
        have hx1 : x ∈ w1 := (List.dropWhile_suffix _).subset hx
        by_contra hns
        exact hcon ⟨x, hx1, by simpa using hns⟩
      have hstr : strtod (w1.dropWhile isspace ++ val.drop w1.length) = strtod val := by
        rw [← dropWhile_append_of_stop _ hex, hval]
        exact strtod_dropWhile val
      simp only [convert, hstr]

theorem takeWhile_append_stop {p : Char → Bool} {a b : List Char} (ha : ∀ x ∈ a, p x = true)
    (hb : ∀ c ∈ b.head?, p c = false) : (a ++ b).takeWhile p = a := by
  rw [List.takeWhile_append_of_pos ha]
  cases b with
  | nil => simp
  | cons c t => simp [List.takeWhile_cons, hb c (by simp)]

theorem dropWhile_append_stop {p : Char → Bool} {a b : List Char} (ha : ∀ x ∈ a, p x = true)
    (hb : ∀ c ∈ b.head?, p c = false) : (a ++ b).dropWhile p = b := by
  rw [List.dropWhile_append_of_pos ha]
  cases b with
  | nil => simp
  | cons c t => simp [List.dropWhile_cons, hb c (by simp)]

theorem not_sign_of_isdigit {c : Char} (h : isdigit c = true) : c ≠ '-' ∧ c ≠ '+' ∧ c ≠ '.' := by
  rcases isdigit_cases h with rfl | rfl | rfl | rfl | rfl | rfl | rfl | rfl | rfl | rfl <;> decide

theorem tolower_of_isdigit {c : Char} (h : isdigit c = true) : tolower c = c := by
  rcases isdigit_cases h with rfl | rfl | rfl | rfl | rfl | rfl | rfl | rfl | rfl | rfl <;> decide

theorem not_marker_of_isdigit {c : Char} (h : isdigit c = true) :
    tolower c ≠ 'x' ∧ tolower c ≠ 'e' := by
  rcases isdigit_cases h with rfl | rfl | rfl | rfl | rfl | rfl | rfl | rfl | rfl | rfl <;> decide

/-- The result of `strtod` on a decimal number, after white space and before text that does
not continue the number: it returns the double nearest to the number and
leaves the text after it unread. -/
theorem strtod_decimal (w ip : List Char) (frac : Option (List Char)) (rest : List Char)
    (hw : ∀ c ∈ w, isspace c = true) (hne : ip ≠ []) (hip : ∀ c ∈ ip, isdigit c = true)
    (hfp : ∀ c ∈ frac.getD [], isdigit c = true) (hrest : endsNumber ip frac rest = true) :
    strtod (w ++ (decimalText ip frac ++ rest)) = some (decimalValue ip frac, rest) := by
  obtain ⟨d, ips, rfl⟩ := List.exists_cons_of_ne_nil hne
  have hd : isdigit d = true := hip d (List.mem_cons_self _ _)
  -- the text after the digits before the radix character
  obtain ⟨z, hz⟩ : ∃ z, z = fracText frac ++ rest := ⟨_, rfl⟩
  have htext : decimalText (d :: ips) frac ++ rest = (d :: ips) ++ z := by
    rw [hz, decimalText, List.append_assoc]
  have hrest2 : ∀ c ∈ rest.head?, isdigit c = false ∧ (c = '.' → frac.isSome = true) ∧
      tolower c ≠ 'e' ∧ (tolower c = 'x' → (d :: ips) ≠ ['0'] ∨ frac.isSome = true) := by
    intro c hc
    have hc2 : rest.head? = some c := hc
    simp only [endsNumber, hc2] at hrest
    simpa [Bool.and_eq_true, Bool.or_eq_true, imp_iff_not_or, or_assoc, and_assoc] using hrest
  have hzdig : ∀ c ∈ z.head?, isdigit c = false := by
    intro c hc
    cases frac with
    | none => exact (hrest2 c (by simpa [hz, fracText] using hc)).1
    | some fp =>
      have : c = '.' := by simpa [hz, fracText] using hc.symm
      subst this; decide
  -- white space and sign
  have h1 : (w ++ ((d :: ips) ++ z)).dropWhile isspace = (d :: ips) ++ z := by
    rw [List.dropWhile_append_of_pos hw, List.cons_append,
      List.dropWhile_cons_of_neg (by simp [isspace_of_isdigit hd])]
  have h2 : scanSign ((d :: ips) ++ z) = (false, (d :: ips) ++ z) := by
    have := not_sign_of_isdigit hd
    simp [scanSign, this.1, this.2.1]
  -- no hexadecimal number
  have h3 : scanHex false ((d :: ips) ++ z) = none := by
    unfold scanHex
    rw [if_neg]
    rintro ⟨h0, hx⟩
    have hd0 : d = '0' := by simpa using h0
    cases ips with
    | cons d2 t =>
      have hd2 : isdigit d2 = true := hip d2 (by simp)
      have : tolower d2 = 'x' := by simpa using hx
      exact (not_marker_of_isdigit hd2).1 this
    | nil =>
      cases frac with
      | some fp =>
        have : tolower '.' = 'x' := by simpa [hz, fracText] using hx
        exact absurd this (by decide)
      | none =>
        cases hr : rest with
        | nil => simp [hz, hr, fracText] at hx
        | cons c t =>
          have hcx : tolower c = 'x' := by simpa [hz, hr, fracText] using hx
          have := (hrest2 c (by simp [hr])).2.2.2 hcx
          simp [hd0] at this
  -- the mantissa
  have htk : ((d :: ips) ++ z).takeWhile isdigit = d :: ips := takeWhile_append_stop hip hzdig
  have hdr : ((d :: ips) ++ z).dropWhile isdigit = z := dropWhile_append_stop hip hzdig
  have hrdig : ∀ c ∈ rest.head?, isdigit c = false := fun c hc => (hrest2 c hc).1
  have h4 : scanMantissa isdigit ((d :: ips) ++ z) = some (d :: ips, frac.getD [], rest) := by
    unfold scanMantissa
    rw [htk, hdr]
    cases frac with
    | some fp =>
      have hfp2 : ∀ c ∈ fp, isdigit c = true := by simpa using hfp
      simp [hz, fracText, takeWhile_append_stop hfp2 hrdig, dropWhile_append_stop hfp2 hrdig]
    | none =>
      have : rest.head? ≠ some '.' := by
        intro h
        have := (hrest2 '.' h).2.1 rfl
        simp at this
      simp [hz, fracText, this]
  -- no exponent
  have h5 : scanExponent 'e' rest = (0, rest) := by
    unfold scanExponent
    rw [if_neg]
    rintro ⟨he, -⟩
    cases hr : rest with
    | nil => simp [hr] at he
    | cons c t =>
      have : tolower c = 'e' := by simpa [hr] using he
      exact (hrest2 c (by simp [hr])).2.2.1 this
  rw [htext, strtod, h1, h2, scanNumber, h3, scanDecimal, h4]
  simp only [h5, decimalValue, zero_sub]

theorem mem_dropWhile_of_stop {p : Char → Bool} {x : Char} {l : List Char} (hx : x ∈ l)
    (hp : p x = false) : x ∈ l.dropWhile p := by
  induction l with
  | nil => simp at hx
  | cons y ys ih =>
    by_cases hy : p y = true
    · rw [List.dropWhile_cons_of_pos hy]
      rcases List.mem_cons.mp hx with rfl | h
      · simp [hp] at hy
      · exact ih h
    · rw [List.dropWhile_cons_of_neg hy]; exact hx

/-- What `rdropWhile` removes satisfies the predicate. -/
theorem rdropWhile_split (p : Char → Bool) (l : List Char) :
    ∃ t, l = l.rdropWhile p ++ t ∧ ∀ x ∈ t, p x = true := by
  induction l using List.reverseRecOn with
  | nil => exact ⟨[], by simp⟩
  | append_singleton l x ih =>
    by_cases hx : p x = true
    · obtain ⟨t, ht, hall⟩ := ih
      refine ⟨t ++ [x], ?_, ?_⟩
      · rw [List.rdropWhile_concat_pos _ _ _ hx, ← List.append_assoc, ← ht]
      · intro y hy
        rcases List.mem_append.mp hy with h | h
        · exact hall y h
        · simpa [List.mem_singleton.mp h] using hx
    · exact ⟨[], by rw [List.rdropWhile_concat_neg _ _ _ hx]; simp, by simp⟩

theorem rdropWhile_append_of_all {p : Char → Bool} (l : List Char) {w : List Char}
    (hw : ∀ x ∈ w, p x = true) : (l ++ w).rdropWhile p = l.rdropWhile p := by
  induction w using List.reverseRecOn with
  | nil => simp
  | append_singleton w x ih =>
    rw [← List.append_assoc, List.rdropWhile_concat_pos _ _ _ (hw x (by simp))]
    exact ih (fun y hy => hw y (by simp [hy]))

theorem rdropWhile_append_of_stop {p : Char → Bool} (a : List Char) {d : Char} (b : List Char)
    (hd : p d = false) : (a ++ d :: b).rdropWhile p = a ++ d :: b.rdropWhile p := by
  induction b using List.reverseRecOn with
  | nil =>
    have := List.rdropWhile_concat_neg p a d (by simp [hd])
    simpa using this
  | append_singleton b x ih =>
    have e : a ++ d :: (b ++ [x]) = (a ++ d :: b) ++ [x] := by simp
    rw [e, List.rdropWhile_concat, List.rdropWhile_concat, ih]
    split <;> simp

/-- The window between `val` and `end` after lines 43-66, in front of the rest
of the argument. -/
theorem window_split (val : List Char) (last : Char)
    (hl : (val.rdropWhile isspace).getLast? = some last) :
    ∃ u, val = (if (suffixMult last).isSome = true then (val.rdropWhile isspace).dropLast
        else val.rdropWhile isspace) ++ u ∧
      ∀ c ∈ u.head?, isspace c = true ∨ (suffixMult c).isSome = true := by
  obtain ⟨t, ht, hall⟩ := rdropWhile_split isspace val
  have hW := List.dropLast_append_getLast? last hl
  by_cases hs : (suffixMult last).isSome = true
  · rw [if_pos hs]
    refine ⟨last :: t, ?_, ?_⟩
    · have : (val.rdropWhile isspace).dropLast ++ last :: t
          = ((val.rdropWhile isspace).dropLast ++ [last]) ++ t := by simp
      rw [this, hW]; exact ht
    · intro c hc
      have : c = last := by simpa using hc.symm
      exact Or.inr (this ▸ hs)
  · rw [if_neg hs]
    refine ⟨t, ht, ?_⟩
    intro c hc
    cases t with
    | nil => simp at hc
    | cons x ts =>
      have : c = x := by simpa using hc.symm
      exact Or.inl (this ▸ hall x (by simp))

/-- When something is left between `val` and `end`, the argument without its
leading white space starts with it, and what follows starts with white space or
with the suffix letter. -/
theorem dropWhile_eq_trimmed_append (val : List Char) (h : trimmed val ≠ []) :
    ∃ u, val.dropWhile isspace = trimmed val ++ u ∧
      ∀ c ∈ u.head?, isspace c = true ∨ (suffixMult c).isSome = true := by
  unfold trimmed at h ⊢
  cases hl : (val.rdropWhile isspace).getLast? with
  | none => simp [hl] at h
  | some last =>
    simp only [hl] at h ⊢
    obtain ⟨u2, hu2, hhead2⟩ := window_split val last hl
    generalize (if (suffixMult last).isSome = true then (val.rdropWhile isspace).dropLast
      else val.rdropWhile isspace) = w1 at h hu2 ⊢
    obtain ⟨t1, ht1, hall1⟩ := rdropWhile_split isspace (w1.dropWhile isspace)
    have hex : ∃ x ∈ w1, isspace x = false := by
      by_contra hcon
      apply h
      rw [List.rdropWhile_eq_nil_iff]
      intro x hx
      have hx1 : x ∈ w1 := (List.dropWhile_suffix _).subset hx
      by_contra hns
      exact hcon ⟨x, hx1, by simpa using hns⟩
    refine ⟨t1 ++ u2, ?_, ?_⟩
    · conv_lhs => rw [hu2]
      rw [dropWhile_append_of_stop _ hex, ← List.append_assoc, ← ht1]
    · intro c hc
      cases t1 with
      | nil => exact hhead2 c (by simpa using hc)
      | cons x ts =>
        have : c = x := by simpa using hc.symm
        exact Or.inl (this ▸ hall1 x (by simp))

/-- Something is left between `val` and `end` when the argument holds a
character that is neither white space nor a suffix letter. -/
theorem trimmed_ne_nil (a b : List Char) (d : Char) (hd : isspace d = false)
    (hs : suffixMult d = none) : trimmed (a ++ d :: b) ≠ [] := by
  unfold trimmed
  rw [rdropWhile_append_of_stop a b hd]
  have key : ∀ w1 : List Char, d ∈ w1 → (w1.dropWhile isspace).rdropWhile isspace ≠ [] := by
    intro w1 hmem hnil
    rw [List.rdropWhile_eq_nil_iff] at hnil
    have := hnil d (mem_dropWhile_of_stop hmem hd)
    simp [hd] at this
  cases hb : b.rdropWhile isspace using List.reverseRecOn with
  | nil =>
    have : (a ++ [d]).getLast? = some d := by simp
    simp only [this, hs, Option.isSome_none, Bool.false_eq_true, if_false]
    exact key _ (by simp)
  | append_singleton bs x _ =>
    have e : a ++ d :: (bs ++ [x]) = (a ++ d :: bs) ++ [x] := by simp
    have : (a ++ d :: (bs ++ [x])).getLast? = some x := by rw [e]; exact List.getLast?_concat _
    simp only [this]
    split
    · rw [e, List.dropLast_concat]; exact key _ (by simp)
    · exact key _ (by simp)

theorem multiplier_concat (l : List Char) (c : Char) (hc : isspace c = false) :
    multiplier (l ++ [c]) = (suffixMult c).getD (.finite false 1 0) := by
  unfold multiplier
  rw [List.rdropWhile_concat_neg _ _ _ (by simp [hc]), List.getLast?_concat]

/-- The characters of a decimal number are neither white space nor suffix
letters. -/
theorem decimalText_chars (ip : List Char) (frac : Option (List Char))
    (hip : ∀ c ∈ ip, isdigit c = true) (hfp : ∀ c ∈ frac.getD [], isdigit c = true) :
    ∀ c ∈ decimalText ip frac, isspace c = false ∧ suffixMult c = none := by
  intro c hc
  have hdig : ∀ x, isdigit x = true → isspace x = false ∧ suffixMult x = none :=
    fun x hx => ⟨isspace_of_isdigit hx, suffixMult_of_isdigit hx⟩
  rcases List.mem_append.mp hc with h | h
  · exact hdig c (hip c h)
  · cases frac with
    | none => simp [fracText] at h
    | some fp =>
      rcases List.mem_cons.mp h with rfl | h
      · exact ⟨by decide, by decide⟩
      · exact hdig c (hfp c (by simpa using h))

theorem decimalText_ne_inf (ip : List Char) (frac : Option (List Char)) (rest : List Char)
    (hne : ip ≠ []) (hip : ∀ c ∈ ip, isdigit c = true) :
    decimalText ip frac ++ rest ≠ ['i', 'n', 'f'] := by
  obtain ⟨d, ips, rfl⟩ := List.exists_cons_of_ne_nil hne
  have hd : isdigit d = true := hip d (List.mem_cons_self _ _)
  intro h
  have : d = 'i' := by
    simp only [decimalText, List.cons_append] at h
    exact (List.cons.inj h).1
  subst this
  exact absurd hd (by decide)

theorem endsNumber_of (ip : List Char) (frac : Option (List Char)) (rest : List Char) (c : Char)
    (hc : rest.head? = some c) (h1 : isdigit c = false) (h2 : c ≠ '.')
    (h3 : tolower c ≠ 'e') (h4 : tolower c ≠ 'x') : endsNumber ip frac rest = true := by
  simp [endsNumber, hc, h1, h2, h3, h4]

/-- C4 as amended: for a decimal number `x` written as digits with an optional
fractional part, and a suffix among none, `K`, `k`, `M`, `m`, `G`, `g`, `T`,
`t`, `parse_bytes` converts the product of the double nearest to `x` and the
multiplier `1`, `2 ^ 10`, `2 ^ 20`, `2 ^ 30`, `2 ^ 40` of the suffix: it
succeeds and stores the integer part of that product when it is below
`2 ^ 64`, and its behaviour is undefined otherwise. -/
theorem parse_bytes_decimal_suffix (ip : List Char) (frac : Option (List Char))
    (sfx : List Char) (hne : ip ≠ []) (hip : ∀ c ∈ ip, isdigit c = true)
    (hfp : ∀ c ∈ frac.getD [], isdigit c = true)
    (hs : sfx ∈ [[], ['K'], ['k'], ['M'], ['m'], ['G'], ['g'], ['T'], ['t']]) :
    parse_bytes (decimalText ip frac ++ sfx) =
      Parsed.ofProduct ((decimalValue ip frac).mul (.finite false (specMult sfx) 0)) := by
  have hchars := decimalText_chars ip frac hip hfp
  obtain ⟨d, ips, hd⟩ := List.exists_cons_of_ne_nil hne
  have htrim : trimmed (decimalText ip frac ++ sfx) ≠ [] := by
    have := trimmed_ne_nil [] (ips ++ fracText frac ++ sfx) d
      (isspace_of_isdigit (hip d (by simp [hd]))) (suffixMult_of_isdigit (hip d (by simp [hd])))
    simpa [decimalText, hd] using this
  have hends : endsNumber ip frac sfx = true := by
    simp only [List.mem_cons, List.mem_singleton, List.not_mem_nil, or_false] at hs
    rcases hs with rfl | rfl | rfl | rfl | rfl | rfl | rfl | rfl | rfl
    · rfl
    all_goals
      exact endsNumber_of _ _ _ _ rfl (by decide) (by decide) (by decide) (by decide)
  have hstr := strtod_decimal [] ip frac sfx (by simp) hne hip hfp hends
  have hmult : multiplier (decimalText ip frac ++ sfx) = .finite false (specMult sfx) 0 := by
    simp only [List.mem_cons, List.mem_singleton, List.not_mem_nil, or_false] at hs
    rcases hs with rfl | rfl | rfl | rfl | rfl | rfl | rfl | rfl | rfl
    · have hnn : decimalText ip frac ≠ [] := by simp [decimalText, hd]
      have hlast := hchars _ (List.getLast_mem hnn)
      rw [List.append_nil, ← List.dropLast_append_getLast hnn, multiplier_concat _ _ hlast.1,
        hlast.2]
      rfl
    all_goals (rw [multiplier_concat _ _ (by decide)]; decide)
  rw [parse_bytes_eq _ (decimalText_ne_inf ip frac sfx hne hip), if_neg htrim, convert]
  rw [List.nil_append] at hstr
  rw [hstr, hmult]

/-- C4 as amended, at an input: `1.5M` is parsed to 1572864. -/
theorem parse_bytes_decimal_suffix_witness :
    parse_bytes (decimalText ['1'] (some ['5']) ++ ['M']) =
        Parsed.ofProduct ((decimalValue ['1'] (some ['5'])).mul
          (.finite false (specMult ['M']) 0)) ∧
      Parsed.ofProduct ((decimalValue ['1'] (some ['5'])).mul
          (.finite false (specMult ['M']) 0)) = .ok 1572864 :=
  ⟨parse_bytes_decimal_suffix ['1'] (some ['5']) ['M'] (by decide) (by decide) (by decide)
    (by decide), by decide⟩

/-- C4, refuted: `9007199254740993` is `2 ^ 53 + 1`, which no double holds;
`strtod` returns `2 ^ 53` and `parse_bytes` stores 9007199254740992, not the
number written.  `0.99999999999999999999` is stored as 1, not as 0, and for
`100000000000000000000` the conversion to `unsigned long` is out of range. -/
theorem parse_bytes_rounds_to_double :
    parse_bytes ("9007199254740993".toList) = .ok 9007199254740992 ∧
      parse_bytes ("0.99999999999999999999".toList) = .ok 1 ∧
      parse_bytes ("100000000000000000000".toList) = .undefined := by
  decide

theorem endsNumber_append (ip : List Char) (frac : Option (List Char)) (g u : List Char)
    (hg : g ≠ []) : endsNumber ip frac (g ++ u) = endsNumber ip frac g := by
  obtain ⟨c, t, rfl⟩ := List.exists_cons_of_ne_nil hg
  simp [endsNumber]

/-- C5 as amended: when the text left after white space stripping and suffix
removal is a decimal number followed by further characters that do not
continue it, `parse_bytes` does not fail: `strtod` stops at those characters,
they are ignored, and the number is converted with the multiplier of the
suffix. -/
theorem parse_bytes_ignores_trailing (val ip : List Char) (frac : Option (List Char))
    (g : List Char) (hne : ip ≠ []) (hip : ∀ c ∈ ip, isdigit c = true)
    (hfp : ∀ c ∈ frac.getD [], isdigit c = true) (hg : g ≠ [])
    (hends : endsNumber ip frac g = true) (hbody : trimmed val = decimalText ip frac ++ g) :
    parse_bytes val = Parsed.ofProduct ((decimalValue ip frac).mul (multiplier val)) ∧
      parse_bytes val ≠ .fail := by
  have hinf : val ≠ ['i', 'n', 'f'] := by
    rintro rfl
    have h1 : trimmed ['i', 'n', 'f'] = ['i', 'n', 'f'] := by decide
    rw [h1] at hbody
    exact decimalText_ne_inf ip frac g hne hip hbody.symm
  have htrim : trimmed val ≠ [] := by
    rw [hbody]
    obtain ⟨d, ips, rfl⟩ := List.exists_cons_of_ne_nil hne
    simp [decimalText]
  obtain ⟨u, hu, -⟩ := dropWhile_eq_trimmed_append val htrim
  have hstr : strtod val = some (decimalValue ip frac, g ++ u) := by
    rw [← strtod_dropWhile, hu, hbody, List.append_assoc]
    have := strtod_decimal [] ip frac (g ++ u) (by simp) hne hip hfp
      (by rw [endsNumber_append _ _ _ _ hg]; exact hends)
    simpa using this
  have hval : parse_bytes val = Parsed.ofProduct ((decimalValue ip frac).mul (multiplier val)) := by
    rw [parse_bytes_eq _ hinf, if_neg htrim, convert, hstr]
  refine ⟨hval, ?_⟩
  rw [hval, Parsed.ofProduct]
  split <;> simp

/-- C5 as amended, at an input: `1.2x` is parsed to 1. -/
theorem parse_bytes_ignores_trailing_witness :
    (parse_bytes ("1.2x".toList) =
        Parsed.ofProduct ((decimalValue ['1'] (some ['2'])).mul (multiplier ("1.2x".toList))) ∧
      parse_bytes ("1.2x".toList) ≠ .fail) ∧
      Parsed.ofProduct ((decimalValue ['1'] (some ['2'])).mul (multiplier ("1.2x".toList)))
        = .ok 1 :=
  ⟨parse_bytes_ignores_trailing ("1.2x".toList) ['1'] (some ['2']) ['x'] (by decide) (by decide)
    (by decide) (by decide) (by decide) (by decide), by decide⟩

/-- C5, refuted: `1.2x` and `12 34k` are accepted; the characters after the
number are ignored and 1 and `12 * 1024` are stored. -/
theorem parse_bytes_accepts_trailing_garbage :
    parse_bytes ("1.2x".toList) = .ok 1 ∧ parse_bytes ("12 34k".toList) = .ok 12288 := by
  decide

/-- A character that is white space or a suffix letter starts none of the forms
that `strtod` converts. -/
theorem stopper_facts {c : Char} (h : isspace c = true ∨ (suffixMult c).isSome = true) :
    isdigit c = false ∧ c ≠ '.' ∧ c ≠ '-' ∧ c ≠ '+' ∧ tolower c ≠ 'i' ∧ tolower c ≠ 'n' ∧
      tolower c ≠ 'f' ∧ tolower c ≠ 'a' := by
  rcases h with h | h
  · rcases isspace_cases h with rfl | rfl | rfl | rfl | rfl | rfl <;> decide
  · have hk : tolower c = 'k' ∨ tolower c = 'm' ∨ tolower c = 'g' ∨ tolower c = 't' := by
      unfold suffixMult at h
      by_contra hcon
      simp only [not_or] at hcon
      simp [hcon.1, hcon.2.1, hcon.2.2.1, hcon.2.2.2] at h
    have hnd : isdigit c = false := by
      by_contra hd
      have hd1 : isdigit c = true := by simpa using hd
      rw [tolower_of_isdigit hd1] at hk
      rcases hk with rfl | rfl | rfl | rfl <;> exact absurd hd1 (by decide)
    refine ⟨hnd, ?_, ?_, ?_, ?_, ?_, ?_, ?_⟩
    · rintro rfl; rcases hk with h | h | h | h <;> exact absurd h (by decide)
    · rintro rfl; rcases hk with h | h | h | h <;> exact absurd h (by decide)
    · rintro rfl; rcases hk with h | h | h | h <;> exact absurd h (by decide)
    all_goals (intro h2; rw [h2] at hk; exact absurd hk (by decide))

theorem scanSign_append (b u : List Char) (hb : b ≠ []) :
    scanSign (b ++ u) = ((scanSign b).1, (scanSign b).2 ++ u) := by
  obtain ⟨c, t, rfl⟩ := List.exists_cons_of_ne_nil hb
  unfold scanSign
  simp only [List.cons_append, List.head?_cons, List.tail_cons]
  split_ifs <;> rfl

/-- A word that is not at the start of a text is not at the start of the text
followed by a character outside the word. -/
theorem scanWord_append_none (u : List Char) :
    ∀ (pat t : List Char), (∀ c ∈ u.head?, ∀ p ∈ pat, tolower c ≠ p) →
      scanWord pat t = none → scanWord pat (t ++ u) = none := by
  intro pat
  induction pat with
  | nil => intro t _ h; simp [scanWord] at h
  | cons p ps ih =>
    intro t hu h
    cases t with
    | nil =>
      cases u with
      | nil => rfl
      | cons c us =>
        have := hu c (by simp) p (by simp)
        simp [scanWord, this]
    | cons x xs =>
      simp only [scanWord, List.cons_append] at h ⊢
      split_ifs at h ⊢ with hx
      · exact ih xs (fun c hc q hq => hu c hc q (by simp [hq])) h
      · rfl

/-- Text that does not begin with a number, followed by white space or a suffix
letter, is not converted by `strtod`. -/
theorem scanNumber_none (neg : Bool) (t u : List Char)
    (hu : ∀ c ∈ u.head?, isspace c = true ∨ (suffixMult c).isSome = true)
    (h1 : ∀ c ∈ t.head?, isdigit c = false)
    (h2 : t.head? = some '.' → ∀ c ∈ t.tail.head?, isdigit c = false)
    (h3 : scanWord ['i', 'n', 'f'] t = none) (h4 : scanWord ['n', 'a', 'n'] t = none) :
    scanNumber neg (t ++ u) = none := by
  have hhead : ∀ c ∈ (t ++ u).head?, isdigit c = false := by
    intro c hc
    cases t with
    | nil => exact (stopper_facts (hu c (by simpa using hc))).1
    | cons x xs => exact h1 c (by simpa using hc)
  have htk : (t ++ u).takeWhile isdigit = [] := by
    have := takeWhile_append_stop (p := isdigit) (a := []) (b := t ++ u) (by simp) hhead
    simpa using this
  have hdr : (t ++ u).dropWhile isdigit = t ++ u := by
    have := dropWhile_append_stop (p := isdigit) (a := []) (b := t ++ u) (by simp) hhead
    simpa using this
  have hhex : scanHex neg (t ++ u) = none := by
    unfold scanHex
    rw [if_neg]
    rintro ⟨h0, -⟩
    exact absurd (hhead '0' h0) (by decide)
  have hdec : scanDecimal neg (t ++ u) = none := by
    have : scanMantissa isdigit (t ++ u) = none := by
      unfold scanMantissa
      rw [htk, hdr]
      by_cases hdot : (t ++ u).head? = some '.'
      · rw [if_pos hdot, if_pos]
        refine ⟨rfl, ?_⟩
        cases t with
        | nil =>
          have := (stopper_facts (hu '.' (by simpa using hdot))).2.1
          exact absurd rfl this
        | cons x xs =>
          have hx : x = '.' := by simpa using hdot
          subst hx
          have hh : ∀ c ∈ (xs ++ u).head?, isdigit c = false := by
            intro c hc
            cases xs with
            | nil => exact (stopper_facts (hu c (by simpa using hc))).1
            | cons y ys => exact h2 rfl c (by simpa using hc)
          have := takeWhile_append_stop (p := isdigit) (a := []) (b := xs ++ u) (by simp) hh
          simpa using this
      · rw [if_neg hdot, if_pos rfl]
    simp [scanDecimal, this]
  have hinf : scanInf neg (t ++ u) = none := by
    have := scanWord_append_none u ['i', 'n', 'f'] t (by
      intro c hc p hp
      have hf := stopper_facts (hu c hc)
      simp only [List.mem_cons, List.mem_singleton, List.not_mem_nil, or_false] at hp
      rcases hp with rfl | rfl | rfl
      · exact hf.2.2.2.2.1
      · exact hf.2.2.2.2.2.1
      · exact hf.2.2.2.2.2.2.1) h3
    simp [scanInf, this]
  have hnan : scanNan (t ++ u) = none := by
    have := scanWord_append_none u ['n', 'a', 'n'] t (by
      intro c hc p hp
      have hf := stopper_facts (hu c hc)
      simp only [List.mem_cons, List.mem_singleton, List.not_mem_nil, or_false] at hp
      rcases hp with rfl | rfl | rfl
      · exact hf.2.2.2.2.2.1
      · exact hf.2.2.2.2.2.2.2
      · exact hf.2.2.2.2.2.1) h4
    simp [scanNan, this]
  simp [scanNumber, hhex, hdec, hinf, hnan]

theorem parse_bytes_fail_of_not_startsNumber (val : List Char)
    (h : startsNumber (trimmed val) = false) : parse_bytes val = .fail := by
  have hinf : val ≠ ['i', 'n', 'f'] := by
    rintro rfl
    exact absurd h (by decide)
  rw [parse_bytes_eq _ hinf]
  by_cases htrim : trimmed val = []
  · rw [if_pos htrim]
  · rw [if_neg htrim]
    obtain ⟨u, hu, hhead⟩ := dropWhile_eq_trimmed_append val htrim
    have hidem : (trimmed val ++ u).dropWhile isspace = trimmed val ++ u := by
      rw [← hu, List.dropWhile_idempotent]
    simp only [startsNumber, Bool.or_eq_false_iff, Bool.and_eq_false_iff] at h
    obtain ⟨⟨⟨h1, h2⟩, h3⟩, h4⟩ := h
    have hstr : strtod val = none := by
      rw [← strtod_dropWhile, hu, strtod, hidem, scanSign_append _ _ htrim]
      apply scanNumber_none _ _ _ hhead
      · intro c hc
        have hc2 : (scanSign (trimmed val)).2.head? = some c := hc
        simpa [hc2] using h1
      · intro hdot c hc
        have hc2 : (scanSign (trimmed val)).2.tail.head? = some c := hc
        rcases h2 with h2 | h2
        · simp [hdot] at h2
        · simpa [hc2] using h2
      · simpa using h3
      · simpa using h4
    simp [convert, hstr]

/-- C10 as amended: `parse_bytes` fails for the empty string, for a string of
white space, for a single suffix letter with white space around it, and for
every string whose stripped body does not begin with text that `strtod`
converts: an optional sign and then a digit, a radix character followed by a
digit, or the letters `inf` or `nan` in any case. -/
theorem parse_bytes_rejects_no_number (val : List Char)
    (h : val = [] ∨ (∀ c ∈ val, isspace c = true) ∨
      (∃ w1 c w2, val = w1 ++ c :: w2 ∧ (∀ x ∈ w1, isspace x = true) ∧
        (∀ x ∈ w2, isspace x = true) ∧ (suffixMult c).isSome = true) ∨
      startsNumber (trimmed val) = false) :
    parse_bytes val = .fail := by
  apply parse_bytes_fail_of_not_startsNumber
  have hnil : ∀ v, (∀ c ∈ v, isspace c = true) → trimmed v = [] := by
    intro v hv
    have : v.rdropWhile isspace = [] := List.rdropWhile_eq_nil_iff.mpr hv
    simp [trimmed, this]
  rcases h with rfl | h | ⟨w1, c, w2, rfl, h1, h2, hc⟩ | h
  · rfl
  · rw [hnil val h]; rfl
  · have hcs : isspace c = false := by
      by_contra hcon
      have := suffixMult_of_isspace (by simpa using hcon : isspace c = true)
      simp [this] at hc
    have : trimmed (w1 ++ c :: w2) = [] := by
      unfold trimmed
      rw [rdropWhile_append_of_stop w1 w2 hcs, List.rdropWhile_eq_nil_iff.mpr h2]
      have e : (w1 ++ [c]).getLast? = some c := List.getLast?_concat _
      simp only [e, hc, if_true, List.dropLast_concat]
      rw [List.dropWhile_eq_nil_iff.mpr h1]; rfl
    rw [this]; rfl
  · exact h

/-- C10 as amended, at an input: `abc` is rejected. -/
theorem parse_bytes_rejects_no_number_witness : parse_bytes ("abc".toList) = .fail :=
  parse_bytes_rejects_no_number ("abc".toList) (Or.inr (Or.inr (Or.inr (by decide))))

/-- C10, refuted: the stripped bodies `nan` and `infinity` do not begin with a
number, yet `parse_bytes` does not fail on them: `strtod` converts them to a
NaN and to an infinity, `val != endptr`, and line 80 converts the product to
`unsigned long`, which is undefined for these values, before returning 1. -/
theorem parse_bytes_accepts_nan :
    parse_bytes ("nan".toList) = .undefined ∧ parse_bytes ("infinity".toList) = .undefined ∧
      parse_bytes ("-inf k".toList) = .undefined := by
  decide

/-! ### `strtod` stops at white space -/

theorem head_append_of_stop {s w : List Char} {c : Char}
    (hw : ∀ x ∈ w.head?, isspace x = true) (hc : isspace c = false) :
    (s ++ w).head? = some c ↔ s.head? = some c := by
  cases s with
  | cons x xs => simp
  | nil =>
    cases w with
    | nil => simp
    | cons y ys =>
      have hy : isspace y = true := hw y (by simp)
      simp only [List.nil_append, List.head?_cons, List.head?_nil, Option.some.injEq]
      constructor
      · rintro rfl; simp [hy] at hc
      · intro h; simp at h

theorem head_tolower_append_of_stop {s w : List Char} {m : Char}
    (hw : ∀ x ∈ w.head?, isspace x = true) (hm : ∀ x, isspace x = true → tolower x ≠ m) :
    (s ++ w).head?.map tolower = some m ↔ s.head?.map tolower = some m := by
  cases s with
  | cons x xs => simp
  | nil =>
    cases w with
    | nil => simp
    | cons y ys =>
      have hy : isspace y = true := hw y (by simp)
      simp [hm y hy]

theorem takeWhile_append_ws {p : Char → Bool} (hp : ∀ x, isspace x = true → p x = false)
    (s : List Char) {w : List Char} (hw : ∀ x ∈ w.head?, isspace x = true) :
    (s ++ w).takeWhile p = s.takeWhile p := by
  induction s with
  | nil =>
    have := takeWhile_append_stop (p := p) (a := []) (b := w) (by simp)
      (fun c hc => hp c (hw c hc))
    simpa using this
  | cons x xs ih =>
    by_cases hx : p x = true
    · simp [List.takeWhile_cons, hx, ih]
    · simp [List.takeWhile_cons, hx]

theorem dropWhile_append_ws {p : Char → Bool} (hp : ∀ x, isspace x = true → p x = false)
    (s : List Char) {w : List Char} (hw : ∀ x ∈ w.head?, isspace x = true) :
    (s ++ w).dropWhile p = s.dropWhile p ++ w := by
  induction s with
  | nil =>
    have := dropWhile_append_stop (p := p) (a := []) (b := w) (by simp)
      (fun c hc => hp c (hw c hc))
    simpa using this
  | cons x xs ih =>
    by_cases hx : p x = true
    · simp [List.dropWhile_cons, hx, ih]
    · simp [List.dropWhile_cons, hx]

theorem isdigit_of_isspace {x : Char} (h : isspace x = true) : isdigit x = false := by
  rcases isspace_cases h with rfl | rfl | rfl | rfl | rfl | rfl <;> decide

theorem isxdigit_of_isspace {x : Char} (h : isspace x = true) : isxdigit x = false := by
  rcases isspace_cases h with rfl | rfl | rfl | rfl | rfl | rfl <;> decide

theorem isnchar_of_isspace {x : Char} (h : isspace x = true) : isnchar x = false := by
  rcases isspace_cases h with rfl | rfl | rfl | rfl | rfl | rfl <;> decide

/-- White space is none of the characters that the forms of `strtod` are made
of, in either case. -/
theorem tolower_of_isspace {x : Char} (h : isspace x = true) :
    tolower x ≠ 'e' ∧ tolower x ≠ 'p' ∧ tolower x ≠ 'x' ∧ tolower x ≠ 'i' ∧ tolower x ≠ 'n' ∧
      tolower x ≠ 'f' ∧ tolower x ≠ 'a' ∧ tolower x ≠ 't' ∧ tolower x ≠ 'y' := by
  rcases isspace_cases h with rfl | rfl | rfl | rfl | rfl | rfl <;> decide

theorem scanSign_append_ws (s : List Char) {w : List Char}
    (hw : ∀ x ∈ w.head?, isspace x = true) :
    scanSign (s ++ w) = ((scanSign s).1, (scanSign s).2 ++ w) := by
  cases s with
  | cons x xs => exact scanSign_append _ _ (by simp)
  | nil =>
    have h1 : ¬ w.head? = some '-' := fun h => absurd (hw _ h) (by decide)
    have h2 : ¬ w.head? = some '+' := fun h => absurd (hw _ h) (by decide)
    simp [scanSign, h1, h2]

theorem tail_append_of_ne_nil {s : List Char} (w : List Char) (hs : s ≠ []) :
    (s ++ w).tail = s.tail ++ w := by
  obtain ⟨c, t, rfl⟩ := List.exists_cons_of_ne_nil hs
  rfl

theorem ne_nil_of_head {s : List Char} {c : Char} (h : s.head? = some c) : s ≠ [] := by
  rintro rfl; simp at h

theorem scanMantissa_append_ws {p : Char → Bool} (hp : ∀ x, isspace x = true → p x = false)
    (s : List Char) {w : List Char} (hw : ∀ x ∈ w.head?, isspace x = true) :
    scanMantissa p (s ++ w) = (scanMantissa p s).map (fun r => (r.1, r.2.1, r.2.2 ++ w)) := by
  unfold scanMantissa
  rw [takeWhile_append_ws hp s hw, dropWhile_append_ws hp s hw]
  by_cases hdot : (s.dropWhile p).head? = some '.'
  · have hdot2 : (s.dropWhile p ++ w).head? = some '.' :=
      (head_append_of_stop hw (by decide)).mpr hdot
    rw [if_pos hdot, if_pos hdot2, tail_append_of_ne_nil w (ne_nil_of_head hdot),
      takeWhile_append_ws hp _ hw, dropWhile_append_ws hp _ hw]
    split_ifs <;> rfl
  · have hdot2 : ¬ (s.dropWhile p ++ w).head? = some '.' :=
      fun h => hdot ((head_append_of_stop hw (by decide)).mp h)
    rw [if_neg hdot, if_neg hdot2]
    split_ifs <;> rfl

theorem scanExponent_append_ws (m : Char) (hm : ∀ x, isspace x = true → tolower x ≠ m)
    (s : List Char) {w : List Char} (hw : ∀ x ∈ w.head?, isspace x = true) :
    scanExponent m (s ++ w) = ((scanExponent m s).1, (scanExponent m s).2 ++ w) := by
  unfold scanExponent
  by_cases hh : s.head?.map tolower = some m
  · have hs : s ≠ [] := by rintro rfl; simp at hh
    have hh2 : (s ++ w).head?.map tolower = some m :=
      (head_tolower_append_of_stop hw hm).mpr hh
    rw [tail_append_of_ne_nil w hs, scanSign_append_ws _ hw]
    simp only [hh, hh2, true_and, takeWhile_append_ws (fun x => isdigit_of_isspace) _ hw,
      dropWhile_append_ws (fun x => isdigit_of_isspace) _ hw]
    split_ifs <;> rfl
  · have hh2 : ¬ (s ++ w).head?.map tolower = some m :=
      fun h => hh ((head_tolower_append_of_stop hw hm).mp h)
    simp only [hh, hh2, false_and, if_false]

theorem scanWord_append_ws {w : List Char} (hw : ∀ x ∈ w.head?, isspace x = true) :
    ∀ (pat s : List Char), (∀ x, isspace x = true → ∀ q ∈ pat, tolower x ≠ q) →
      scanWord pat (s ++ w) = (scanWord pat s).map (fun r => r ++ w) := by
  intro pat
  induction pat with
  | nil => intro s _; simp [scanWord]
  | cons q qs ih =>
    intro s hq
    cases s with
    | nil =>
      cases w with
      | nil => rfl
      | cons y ys =>
        have := hq y (hw y (by simp)) q (by simp)
        simp [scanWord, this]
    | cons x xs =>
      simp only [scanWord, List.cons_append]
      split_ifs
      · exact ih xs (fun y hy r hr => hq y hy r (by simp [hr]))
      · rfl

theorem scanDecimal_append_ws (neg : Bool) (s : List Char) {w : List Char}
    (hw : ∀ x ∈ w.head?, isspace x = true) :
    scanDecimal neg (s ++ w) = (scanDecimal neg s).map (fun r => (r.1, r.2 ++ w)) := by
  unfold scanDecimal
  rw [scanMantissa_append_ws (fun x => isdigit_of_isspace) s hw]
  cases scanMantissa isdigit s with
  | none => rfl
  | some r =>
    obtain ⟨ip, fp, t⟩ := r
    simp only [Option.map_some']
    rw [scanExponent_append_ws 'e' (fun x hx => (tolower_of_isspace hx).1) t hw]

theorem scanHex_append_ws (neg : Bool) (s : List Char) {w : List Char}
    (hw : ∀ x ∈ w.head?, isspace x = true) :
    scanHex neg (s ++ w) = (scanHex neg s).map (fun r => (r.1, r.2 ++ w)) := by
  unfold scanHex
  by_cases h : s.head? = some '0' ∧ s.tail.head?.map tolower = some 'x'
  · have hs : s ≠ [] := ne_nil_of_head h.1
    have hs2 : s.tail ≠ [] := by
      intro h0; rw [h0] at h; simp at h
    have h2 : (s ++ w).head? = some '0' ∧ (s ++ w).tail.head?.map tolower = some 'x' := by
      rw [tail_append_of_ne_nil w hs]
      exact ⟨(head_append_of_stop hw (by decide)).mpr h.1,
        (head_tolower_append_of_stop hw (fun x hx => (tolower_of_isspace hx).2.2.1)).mpr h.2⟩
    rw [if_pos h, if_pos h2, tail_append_of_ne_nil w hs, tail_append_of_ne_nil w hs2,
      scanMantissa_append_ws (fun x => isxdigit_of_isspace) _ hw]
    cases scanMantissa isxdigit s.tail.tail with
    | none => rfl
    | some r =>
      obtain ⟨ip, fp, t⟩ := r
      simp only [Option.map_some']
      rw [scanExponent_append_ws 'p' (fun x hx => (tolower_of_isspace hx).2.1) t hw]
  · have h2 : ¬ ((s ++ w).head? = some '0' ∧ (s ++ w).tail.head?.map tolower = some 'x') := by
      rintro ⟨ha, hb⟩
      have ha2 := (head_append_of_stop hw (by decide)).mp ha
      rw [tail_append_of_ne_nil w (ne_nil_of_head ha2)] at hb
      exact h ⟨ha2, (head_tolower_append_of_stop hw
        (fun x hx => (tolower_of_isspace hx).2.2.1)).mp hb⟩
    rw [if_neg h, if_neg h2]; rfl

theorem scanInf_append_ws (neg : Bool) (s : List Char) {w : List Char}
    (hw : ∀ x ∈ w.head?, isspace x = true) :
    scanInf neg (s ++ w) = (scanInf neg s).map (fun r => (r.1, r.2 ++ w)) := by
  unfold scanInf
  rw [scanWord_append_ws hw ['i', 'n', 'f'] s (by
    intro x hx q hq
    have hf := tolower_of_isspace hx
    simp only [List.mem_cons, List.mem_singleton, List.not_mem_nil, or_false] at hq
    rcases hq with rfl | rfl | rfl
    · exact hf.2.2.2.1
    · exact hf.2.2.2.2.1
    · exact hf.2.2.2.2.2.1)]
  cases scanWord ['i', 'n', 'f'] s with
  | none => rfl
  | some t =>
    simp only [Option.map_some']
    rw [scanWord_append_ws hw ['i', 'n', 'i', 't', 'y'] t (by
      intro x hx q hq
      have hf := tolower_of_isspace hx
      simp only [List.mem_cons, List.mem_singleton, List.not_mem_nil, or_false] at hq
      rcases hq with rfl | rfl | rfl | rfl | rfl
      · exact hf.2.2.2.1
      · exact hf.2.2.2.2.1
      · exact hf.2.2.2.1
      · exact hf.2.2.2.2.2.2.2.1
      · exact hf.2.2.2.2.2.2.2.2)]
    cases scanWord ['i', 'n', 'i', 't', 'y'] t <;> rfl

theorem scanNan_append_ws (s : List Char) {w : List Char}
    (hw : ∀ x ∈ w.head?, isspace x = true) :
    scanNan (s ++ w) = (scanNan s).map (fun r => (r.1, r.2 ++ w)) := by
  unfold scanNan
  rw [scanWord_append_ws hw ['n', 'a', 'n'] s (by
    intro x hx q hq
    have hf := tolower_of_isspace hx
    simp only [List.mem_cons, List.mem_singleton, List.not_mem_nil, or_false] at hq
    rcases hq with rfl | rfl | rfl
    · exact hf.2.2.2.2.1
    · exact hf.2.2.2.2.2.2.1
    · exact hf.2.2.2.2.1)]
  cases scanWord ['n', 'a', 'n'] s with
  | none => rfl
  | some t =>
    simp only [Option.map_some']
    by_cases h : t.head? = some '(' ∧ (t.tail.dropWhile isnchar).head? = some ')'
    · have ht : t ≠ [] := ne_nil_of_head h.1
      have h2 : (t ++ w).head? = some '(' ∧
          ((t ++ w).tail.dropWhile isnchar).head? = some ')' := by
        rw [tail_append_of_ne_nil w ht, dropWhile_append_ws (fun x => isnchar_of_isspace) _ hw]
        exact ⟨(head_append_of_stop hw (by decide)).mpr h.1,
          (head_append_of_stop hw (by decide)).mpr h.2⟩
      rw [if_pos h, if_pos h2, tail_append_of_ne_nil w ht,
        dropWhile_append_ws (fun x => isnchar_of_isspace) _ hw,
        tail_append_of_ne_nil w (ne_nil_of_head h.2)]
      rfl
    · have h2 : ¬ ((t ++ w).head? = some '(' ∧
          ((t ++ w).tail.dropWhile isnchar).head? = some ')') := by
        rintro ⟨ha, hb⟩
        have ha2 := (head_append_of_stop hw (by decide)).mp ha
        rw [tail_append_of_ne_nil w (ne_nil_of_head ha2),
          dropWhile_append_ws (fun x => isnchar_of_isspace) _ hw] at hb
        exact h ⟨ha2, (head_append_of_stop hw (by decide)).mp hb⟩
      rw [if_neg h, if_neg h2]
      rfl

theorem scanNumber_append_ws (neg : Bool) (s : List Char) {w : List Char}
    (hw : ∀ x ∈ w.head?, isspace x = true) :
    scanNumber neg (s ++ w) = (scanNumber neg s).map (fun r => (r.1, r.2 ++ w)) := by
  unfold scanNumber
  rw [scanHex_append_ws neg s hw, scanDecimal_append_ws neg s hw, scanInf_append_ws neg s hw,
    scanNan_append_ws s hw]
  cases scanHex neg s with
  | some r => rfl
  | none =>
    cases scanDecimal neg s with
    | some r => rfl
    | none =>
      cases scanInf neg s with
      | some r => rfl
      | none => rfl

/-- White space after a string does not change what `strtod` converts: the
value is the same and the white space is left unread. -/
theorem strtod_append_ws (s w : List Char) (hw : ∀ x ∈ w, isspace x = true) :
    strtod (s ++ w) = (strtod s).map (fun r => (r.1, r.2 ++ w)) := by
  have hhead : ∀ x ∈ w.head?, isspace x = true := by
    intro x hx
    cases w with
    | nil => simp at hx
    | cons y ys =>
      have : x = y := by simpa using hx.symm
      exact this ▸ hw y (by simp)
  unfold strtod
  by_cases hs : ∀ x ∈ s, isspace x = true
  · have h1 : (s ++ w).dropWhile isspace = [] := List.dropWhile_eq_nil_iff.mpr (by
      intro x hx
      rcases List.mem_append.mp hx with h | h
      · exact hs x h
      · exact hw x h)
    have h2 : s.dropWhile isspace = [] := List.dropWhile_eq_nil_iff.mpr hs
    rw [h1, h2]; rfl
  · have hex : ∃ x ∈ s, isspace x = false := by
      by_contra hcon
      apply hs
      intro x hx
      by_contra hns
      exact hcon ⟨x, hx, by simpa using hns⟩
    rw [dropWhile_append_of_stop w hex, scanSign_append_ws _ hhead]
    exact scanNumber_append_ws _ _ hhead

theorem rdropWhile_pad (s w1 w2 : List Char) (hw2 : ∀ x ∈ w2, isspace x = true)
    (hs : ∃ x ∈ s, isspace x = false) :
    (w1 ++ s ++ w2).rdropWhile isspace = w1 ++ s.rdropWhile isspace ∧
      s.rdropWhile isspace ≠ [] := by
  obtain ⟨d, hd, hdws⟩ := hs
  obtain ⟨a, b, rfl⟩ := List.append_of_mem hd
  rw [rdropWhile_append_of_all _ hw2, rdropWhile_append_of_stop a b hdws]
  have e : w1 ++ (a ++ d :: b) = (w1 ++ a) ++ d :: b := by simp
  rw [e, rdropWhile_append_of_stop (w1 ++ a) b hdws]
  exact ⟨by simp, by simp⟩

/-- White space around the argument changes neither the text left between
`val` and `end` nor the multiplier. -/
theorem trimmed_pad (s w1 w2 : List Char) (hw1 : ∀ x ∈ w1, isspace x = true)
    (hw2 : ∀ x ∈ w2, isspace x = true) :
    trimmed (w1 ++ s ++ w2) = trimmed s ∧ multiplier (w1 ++ s ++ w2) = multiplier s := by
  by_cases hs : ∀ x ∈ s, isspace x = true
  · have h1 : (w1 ++ s ++ w2).rdropWhile isspace = [] := List.rdropWhile_eq_nil_iff.mpr (by
      intro x hx
      simp only [List.mem_append] at hx
      rcases hx with (h | h) | h
      · exact hw1 x h
      · exact hs x h
      · exact hw2 x h)
    have h2 : s.rdropWhile isspace = [] := List.rdropWhile_eq_nil_iff.mpr hs
    unfold trimmed multiplier
    rw [h1, h2]
    exact ⟨rfl, rfl⟩
  · have hex : ∃ x ∈ s, isspace x = false := by
      by_contra hcon
      apply hs
      intro x hx
      by_contra hns
      exact hcon ⟨x, hx, by simpa using hns⟩
    obtain ⟨h1, h2⟩ := rdropWhile_pad s w1 w2 hw2 hex
    have hlast : (w1 ++ s.rdropWhile isspace).getLast? = (s.rdropWhile isspace).getLast? :=
      List.getLast?_append_of_ne_nil _ h2
    unfold trimmed multiplier
    rw [h1, hlast]
    cases (s.rdropWhile isspace).getLast? with
    | none => exact ⟨rfl, rfl⟩
    | some last =>
      refine ⟨?_, rfl⟩
      simp only []
      split
      · rw [List.dropLast_append_of_ne_nil _ h2, List.dropWhile_append_of_pos hw1]
      · rw [List.dropWhile_append_of_pos hw1]

theorem strtod_pad (s w1 w2 : List Char) (hw1 : ∀ x ∈ w1, isspace x = true)
    (hw2 : ∀ x ∈ w2, isspace x = true) :
    strtod (w1 ++ s ++ w2) = (strtod s).map (fun r => (r.1, r.2 ++ w2)) := by
  rw [strtod_append_ws _ _ hw2]
  have : strtod (w1 ++ s) = strtod s := by
    rw [← strtod_dropWhile (w1 ++ s), List.dropWhile_append_of_pos hw1, strtod_dropWhile]
  rw [this]

theorem pad_ne_inf (s w1 w2 : List Char) (hw1 : ∀ x ∈ w1, isspace x = true)
    (hw2 : ∀ x ∈ w2, isspace x = true) (hs : s ≠ ['i', 'n', 'f']) :
    w1 ++ s ++ w2 ≠ ['i', 'n', 'f'] := by
  intro h
  have hall : ∀ x ∈ w1 ++ s ++ w2, isspace x = false := by
    rw [h]; decide
  have e1 : w1 = [] := by
    cases w1 with
    | nil => rfl
    | cons x xs =>
      have := hall x (by simp)
      rw [hw1 x (by simp)] at this
      exact absurd this (by decide)
  have e2 : w2 = [] := by
    cases w2 with
    | nil => rfl
    | cons x xs =>
      have := hall x (by simp)
      rw [hw2 x (by simp)] at this
      exact absurd this (by decide)
  apply hs
  simpa [e1, e2] using h

/-- C6 as amended: for every argument `s` other than the literal `inf` and all
strings `w1`, `w2` of white space, `parse_bytes (w1 ++ s ++ w2)` has the
outcome of `parse_bytes s`: the same failure, the same stored value, or the
same undefined conversion. -/
theorem parse_bytes_whitespace_invariant (s w1 w2 : List Char)
    (hw1 : ∀ x ∈ w1, isspace x = true) (hw2 : ∀ x ∈ w2, isspace x = true)
    (hs : s ≠ ['i', 'n', 'f']) :
    parse_bytes (w1 ++ s ++ w2) = parse_bytes s := by
  obtain ⟨ht, hm⟩ := trimmed_pad s w1 w2 hw1 hw2
  rw [parse_bytes_eq _ (pad_ne_inf s w1 w2 hw1 hw2 hs), parse_bytes_eq _ hs, ht, hm]
  split
  · rfl
  · simp only [convert, strtod_pad s w1 w2 hw1 hw2]
    cases strtod s <;> rfl

/-- C6 as amended, at an input: ` 1.5M` followed by a tab and a newline is
parsed like `1.5M`, to 1572864. -/
theorem parse_bytes_whitespace_invariant_witness :
    parse_bytes ([' '] ++ "1.5M".toList ++ ['\t', '\n']) = parse_bytes ("1.5M".toList) ∧
      parse_bytes ("1.5M".toList) = .ok 1572864 :=
  ⟨parse_bytes_whitespace_invariant ("1.5M".toList) [' '] ['\t', '\n'] (by decide) (by decide)
    (by decide), by decide⟩

/-- C6, refuted: `inf` is parsed to 0 by the comparison of line 38, which is
made before any white space is stripped; ` inf` and `inf ` do not pass it and
reach `strtod`, which converts them to an infinity: the conversion to
`unsigned long` at line 80 is undefined and the rate 0 is not stored. -/
theorem parse_bytes_inf_not_whitespace_invariant :
    parse_bytes ("inf".toList) = .ok 0 ∧ parse_bytes ([' '] ++ "inf".toList ++ []) = .undefined ∧
      parse_bytes ([] ++ "inf".toList ++ [' ']) = .undefined := by
  decide

/-! ## The exit status -/

/-- The loop is left through `break` only at a read that returned 0 (line 105):
the last event of the iteration is that read. -/
theorem body_brk_trace (rate : Nat) (s s1 : State) (r : Round)
    (h : body rate s r = .brk s1) :
    r.rd = .bytes [] ∧ s1.trace = s.trace ++ [.read (.bytes [])] := by
  unfold body at h
  dsimp only at h
  split_ifs at h with hn hr hd
  · injection h with h
    subst h
    cases hrd : r.rd with
    | bytes data =>
      rw [hrd] at hn
      have hlen : data.length = 0 := by
        simpa [ReadResult.count] using hn
      have hdata : data = [] := List.length_eq_zero.mp hlen
      subst hdata
      exact ⟨rfl, rfl⟩
    | error =>
      rw [hrd] at hn
      simp [ReadResult.count] at hn

/-- A run of the loop that returned ended with a read of 0 bytes. -/
theorem loop_returned_last (rate : Nat) :
    ∀ (rs : List Round) (s0 s : State), loop rate s0 rs = .returned s →
      s.trace.getLast? = some (.read (.bytes [])) := by
  intro rs
  induction rs with
  | nil => intro s0 s h; simp [loop] at h
  | cons r rs ih =>
    intro s0 s h
    rw [loop] at h
    cases hb : body rate s0 r with
    | next s1 =>
      rw [hb] at h
      exact ih s1 s h
    | brk s1 =>
      rw [hb] at h
      injection h with h
      subst h
      rw [(body_brk_trace rate s0 s1 r hb).2]
      simp
    | divZero s1 =>
      rw [hb] at h
      simp at h

/-- C7 as amended: the function `rw_loop` returns no value and leaves its loop
only through the `break` at a read that returned 0, and `main` returns 0 after
it: in every run in which the rate was parsed and `rw_loop` returned, the last
event is a read of 0 bytes and the exit status is 0, whatever the reads and
writes of the run returned. -/
theorem main_returns_zero_after_rw_loop (prog arg : List Char) (rate : Nat)
    (script : List Round) (s : State)
    (hparse : parse_bytes arg = .ok rate)
    (hrun : rw_loop rate script = .returned s) :
    main [prog, arg] script = .status 0 ∧
    s.trace.getLast? = some (.read (.bytes [])) := by
  refine ⟨?_, loop_returned_last rate script State.init s hrun⟩
  simp only [main, hparse, hrun]

/-- C7 as amended, at an input: `throt 1000` with a first read that fails and
a second that finds the end of input. -/
theorem main_returns_zero_after_rw_loop_witness :
    main ["throt".toList, "1000".toList]
        [{ t_start := 0, rd := .error, wr := -1, t_end := 0, s_start := 0, s_end := 0 },
         Round.quick []] = .status 0 ∧
    (rw_loop 1000
        [{ t_start := 0, rd := .error, wr := -1, t_end := 0, s_start := 0, s_end := 0 },
         Round.quick []]).state.trace.getLast? = some (.read (.bytes [])) :=
  main_returns_zero_after_rw_loop ("throt".toList) ("1000".toList) 1000
    [{ t_start := 0, rd := .error, wr := -1, t_end := 0, s_start := 0, s_end := 0 },
     Round.quick []]
    (rw_loop 1000
        [{ t_start := 0, rd := .error, wr := -1, t_end := 0, s_start := 0, s_end := 0 },
         Round.quick []]).state
    (by decide) (by decide)

/-- C7, refuted: when the first read fails (`n = -1`) the loop goes on: it calls
`write` with the count `(size_t)-1` (on a buffer that no read has filled yet),
computes `delta` from `1000*n` converted to `unsigned long`, sleeps, and issues
the next read; after the end of input `rw_loop` returns and the exit status
is 0. -/
theorem rw_loop_goes_on_after_read_error :
    (rw_loop 1000
        [{ t_start := 0, rd := .error, wr := -1, t_end := 0, s_start := 0, s_end := 0 },
         Round.quick []]).state.trace =
      [.read .error, .write [] 18446744073709551615 (-1),
       .usleep 18446744073709550000 0, .read (.bytes [])] ∧
    main ["throt".toList, "1000".toList]
        [{ t_start := 0, rd := .error, wr := -1, t_end := 0, s_start := 0, s_end := 0 },
         Round.quick []] = .status 0 := by
  decide

/-! ## Termination, the empty input and the sleep of one iteration -/

theorem readsOf_append (a b : List Event) : readsOf (a ++ b) = readsOf a ++ readsOf b := by
  induction a with
  | nil => rfl
  | cons e es ih => cases e <;> simp [readsOf, ih]

theorem sleeps_append (a b : List Event) : sleeps (a ++ b) = sleeps a ++ sleeps b := by
  induction a with
  | nil => rfl
  | cons e es ih => cases e <;> simp [sleeps, ih]

theorem writeCount_append (a b : List Event) :
    writeCount (a ++ b) = writeCount a + writeCount b := by
  induction a with
  | nil => simp [writeCount]
  | cons e es ih => cases e <;> simp [writeCount, ih]; omega

/-- One iteration on a read of at least one byte at a non-zero rate ends at the
end of the body, after this one read. -/
theorem body_positive (rate : Nat) (hrate : 1 ≤ rate) (s : State) (r : Round)
    (hpos : 1 ≤ r.rd.data.length) :
    ∃ s1 es, body rate s r = .next s1 ∧ s1.trace = s.trace ++ .read r.rd :: es ∧
      readsOf es = [] := by
  obtain ⟨c, hrd⟩ : ∃ c, r.rd = .bytes c := by
    cases hr : r.rd with
    | bytes c => exact ⟨c, rfl⟩
    | error => simp [hr, ReadResult.data] at hpos
  simp only [hrd, ReadResult.data] at hpos
  have hn0 : ¬ ((c.length : Int) = 0) := by omega
  have hr0 : ¬ rate = 0 := by omega
  unfold body
  simp only [hrd, ReadResult.count, hn0, hr0, if_false]
  split
  · exact ⟨_, [Event.write (List.take (toULong ↑c.length) ((ReadResult.bytes c).fill s.buf))
        (toULong ↑c.length) r.wr,
      Event.usleep (1000 * delta rate s.adjust r % ULONG) (usub r.s_end r.s_start)],
      rfl, by simp, by simp [readsOf]⟩
  · exact ⟨_, [Event.write (List.take (toULong ↑c.length) ((ReadResult.bytes c).fill s.buf))
        (toULong ↑c.length) r.wr], rfl, by simp, by simp [readsOf]⟩

theorem loop_terminates (rate : Nat) (hrate : 1 ≤ rate) (fin : Round) (rest : List Round)
    (hfin : fin.rd = .bytes []) :
    ∀ (rounds : List Round) (s0 : State), (∀ r ∈ rounds, 1 ≤ r.rd.data.length) →
      ∃ s, loop rate s0 (rounds ++ fin :: rest) = .returned s ∧
        readsOf s.trace = readsOf s0.trace ++ rounds.map (fun r => r.rd) ++ [.bytes []] := by
  intro rounds
  induction rounds with
  | nil =>
    intro s0 _
    refine ⟨{ s0 with trace := s0.trace ++ [.read (.bytes [])] }, ?_, ?_⟩
    · simp [loop, body_eof rate s0 fin hfin]
    · simp [readsOf_append, readsOf]
  | cons r rs ih =>
    intro s0 h
    obtain ⟨s1, es, hb, htr, hes⟩ := body_positive rate hrate s0 r (h r (List.mem_cons_self _ _))
    obtain ⟨s, hs, hreads⟩ := ih s1 (fun r2 hr2 => h r2 (List.mem_cons_of_mem _ hr2))
    refine ⟨s, ?_, ?_⟩
    · simp [loop, hb, hs]
    · rw [hreads, htr]
      simp [readsOf_append, readsOf, hes]

/-- C11: at a rate of at least 1, when the input arrives as reads of at least
one byte followed by a read of 0 bytes, `rw_loop` returns; the reads it has
issued are those reads and the read of 0 bytes, none after it, and the bytes
read are those of the input. -/
theorem rw_loop_terminates (rate : Nat) (hrate : 1 ≤ rate) (rounds : List Round)
    (fin : Round) (rest : List Round) (hpos : ∀ r ∈ rounds, 1 ≤ r.rd.data.length)
    (hfin : fin.rd = .bytes []) :
    ∃ s, rw_loop rate (rounds ++ fin :: rest) = .returned s ∧
      readsOf s.trace = rounds.map (fun r => r.rd) ++ [.bytes []] ∧
      bytesRead s.trace = (rounds.map fun r => r.rd.data.length).sum := by
  obtain ⟨s, hs, hreads⟩ := loop_terminates rate hrate fin rest hfin rounds State.init hpos
  have hreads2 : readsOf s.trace = rounds.map (fun r => r.rd) ++ [.bytes []] := by
    simpa [State.init, readsOf] using hreads
  refine ⟨s, hs, hreads2, ?_⟩
  simp [bytesRead, hreads2, ReadResult.data, List.map_map, Function.comp_def]

/-- C11, at an input: at rate 1000 the chunks `[7, 8]` and `[9]`, the end of
input, and a read that is never issued. -/
theorem rw_loop_terminates_witness :
    ∃ s, rw_loop 1000 ([Round.quick [7, 8], Round.quick [9]] ++
        Round.quick [] :: [Round.quick [1]]) = .returned s ∧
      readsOf s.trace =
        [Round.quick [7, 8], Round.quick [9]].map (fun r => r.rd) ++ [.bytes []] ∧
      bytesRead s.trace =
        ([Round.quick [7, 8], Round.quick [9]].map fun r => r.rd.data.length).sum :=
  rw_loop_terminates 1000 (by decide) [Round.quick [7, 8], Round.quick [9]] (Round.quick [])
    [Round.quick [1]] (by decide) rfl

/-- C13: for every rate, also the rate 0, when the first read returns 0 bytes
`rw_loop` returns after this one read: the trace holds no write and no sleep
and `adjust` is still 0. -/
theorem rw_loop_empty_input (rate : Nat) (fin : Round) (rest : List Round)
    (hfin : fin.rd = .bytes []) :
    rw_loop rate (fin :: rest) =
      .returned { adjust := 0, buf := [], trace := [.read (.bytes [])] } := by
  rw [rw_loop, loop, body_eof rate State.init fin hfin]
  rfl

/-- C13, at an input: rate 0 and an input that is closed at once. -/
theorem rw_loop_empty_input_witness :
    rw_loop 0 (Round.quick [] :: [Round.quick [1]]) =
      .returned { adjust := 0, buf := [], trace := [.read (.bytes [])] } :=
  rw_loop_empty_input 0 (Round.quick []) [Round.quick [1]] rfl

/-- C12: the literal `inf` is parsed successfully to the rate 0. -/
theorem parse_bytes_inf_sentinel : parse_bytes ("inf".toList) = .ok 0 := by
  decide

/-- C14: at rate 1000000 one byte has the nominal time 0; when 1 ms is measured
between `t_start` and `t_end` and `adjust` is 0, the signed `delta` is -1, but
the `unsigned long` variable holds `2 ^ 64 - 1`, which exceeds 100: the loop
calls `usleep` (with the argument `2 ^ 64 - 1000`) and sets `adjust` from that
`delta`. -/
theorem rw_loop_sleeps_on_negative_delta :
    nominal 1000000
        { t_start := 0, rd := .bytes [65], wr := 1, t_end := 1, s_start := 1, s_end := 1 } = 0 ∧
      delta 1000000 0
        { t_start := 0, rd := .bytes [65], wr := 1, t_end := 1, s_start := 1, s_end := 1 }
        = 18446744073709551615 ∧
      rw_loop 1000000
        [{ t_start := 0, rd := .bytes [65], wr := 1, t_end := 1, s_start := 1, s_end := 1 }]
        = .waiting { adjust := 18446744073709551615, buf := [65],
                     trace := [.read (.bytes [65]), .write [65] 1 1,
                               .usleep 18446744073709550616 0] } := by
  decide

/-- The sleep of one iteration that reads something at a non-zero rate: one
`usleep` call with the argument `1000*delta` when `delta`, as the
`unsigned long` that it is, exceeds 100, and none otherwise. -/
theorem body_sleeps (rate : Nat) (s : State) (r : Round) (hn : r.rd.count ≠ 0)
    (hr : rate ≠ 0) :
    sleeps (body rate s r).state.trace = sleeps s.trace ++
      (if delta rate s.adjust r > 100 then [1000 * delta rate s.adjust r % ULONG] else []) := by
  unfold body
  simp only [hn, hr, if_false]
  split <;> simp [Flow.state, sleeps_append, sleeps]

theorem loop_single_state (rate : Nat) (s : State) (r : Round) :
    (loop rate s [r]).state = (body rate s r).state := by
  unfold loop
  cases body rate s r <;> rfl

/-- At rate 1 a full buffer read in no time gives `delta = 16384000`. -/
theorem delta_fullBuffer_rate_one :
    delta 1 0 (Round.quick (List.replicate BUFSIZE 0)) = 16384000 := by
  simp only [delta, Round.quick, ReadResult.count, List.length_replicate, BUFSIZE]
  decide

/-- C15: at rate 1 a full buffer of 16384 bytes read in no time gives
`delta = 16384000` ms; the argument expression `1000*delta` is 16384000000,
which `useconds_t` does not hold: `usleep` receives 3499098112, about 3499
seconds instead of 16384.  With rate 10 and five bytes the one sleep is asked
for with 500000 microseconds, and received so. -/
theorem rw_loop_usleep_argument_truncated :
    delta 1 0 (Round.quick (List.replicate BUFSIZE 0)) = 16384000 ∧
      sleeps (rw_loop 1 [Round.quick (List.replicate BUFSIZE 0)]).state.trace
        = [16384000000] ∧
      received (rw_loop 1 [Round.quick (List.replicate BUFSIZE 0)]).state.trace
        = [3499098112] ∧
      sleeps (rw_loop 10 [Round.quick [1, 2, 3, 4, 5], Round.quick []]).state.trace
        = [500000] ∧
      received (rw_loop 10 [Round.quick [1, 2, 3, 4, 5], Round.quick []]).state.trace
        = [500000] := by
  have hs : sleeps (rw_loop 1 [Round.quick (List.replicate BUFSIZE 0)]).state.trace
      = [16384000000] := by
    rw [rw_loop, loop_single_state, body_sleeps 1 State.init _
      (by simp only [Round.quick, ReadResult.count, List.length_replicate, BUFSIZE]; decide)
      (by decide)]
    have hd : delta 1 State.init.adjust (Round.quick (List.replicate BUFSIZE 0)) = 16384000 :=
      delta_fullBuffer_rate_one
    rw [hd]
    decide
  refine ⟨delta_fullBuffer_rate_one, hs, ?_, by decide, by decide⟩
  rw [received, hs]
  decide

/-! ## The bound on `adjust` -/

/-- A run on a script in two parts goes through the first part and, when the
loop is still running, on through the second. -/
theorem loop_append (rate : Nat) : ∀ (a b : List Round) (s0 : State),
    loop rate s0 (a ++ b) =
      match loop rate s0 a with
      | .waiting s => loop rate s b
      | o => o := by
  intro a
  induction a with
  | nil => intro b s0; rfl
  | cons r rs ih =>
    intro b s0
    simp only [List.cons_append, loop]
    cases body rate s0 r with
    | next s1 => exact ih b s1
    | brk s1 => rfl
    | divZero s1 => rfl

/-- The invariant of the loop while it runs: with a clock that stands still
during reads and writes and sleeps that take the time asked for, after every
iteration `adjust` is at most 200 and the time slept plus `adjust` covers the
nominal times. -/
theorem loop_waiting_invariant (rate : Nat) (hrate : 1 ≤ rate) :
    ∀ (rounds : List Round) (s0 : State),
      (∀ r ∈ rounds, 1 ≤ r.rd.data.length ∧ r.rd.data.length ≤ BUFSIZE ∧
        r.t_end = r.t_start) →
      s0.adjust ≤ 200 →
      ExactSleeps (loop rate s0 rounds).state.trace →
      ∃ s, loop rate s0 rounds = .waiting s ∧ s.adjust ≤ 200 ∧
        slept s0.trace + s0.adjust + (rounds.map (nominal rate)).sum
          ≤ slept s.trace + s.adjust := by
  intro rounds
  induction rounds with
  | nil =>
    intro s0 _ hadj _
    exact ⟨s0, rfl, hadj, by simp⟩
  | cons r rs ih =>
    intro s0 h hadj hexact
    obtain ⟨hne, hlen, hclock⟩ := h r (List.mem_cons_self _ _)
    obtain ⟨s1, hb, hcase⟩ := body_instant rate hrate s0 r hne hlen hclock hadj
    have hstep : loop rate s0 (r :: rs) = loop rate s1 rs := by simp [loop, hb]
    rw [hstep] at hexact
    obtain ⟨tl, htl⟩ := loop_trace_prefix rate rs s1
    have hrest : ∀ r2 ∈ rs, 1 ≤ r2.rd.data.length ∧ r2.rd.data.length ≤ BUFSIZE ∧
        r2.t_end = r2.t_start := fun r2 hr2 => h r2 (List.mem_cons_of_mem _ hr2)
    rcases hcase with ⟨_, hadj1, es, htr, hes, _⟩ | ⟨hle, hadj1, es, htr, hes, _⟩
    · have hmem : Event.usleep (1000 * (nominal rate r + s0.adjust))
          (usub r.s_end r.s_start) ∈ (loop rate s1 rs).state.trace := by
        rw [htl, htr]; simp
      have htook : usub r.s_end r.s_start = nominal rate r + s0.adjust := by
        have := hexact _ hmem
        simp only [Event.exact, beq_iff_eq] at this
        omega
      rw [htook, usub_self] at hadj1
      obtain ⟨s, hs, h1, h2⟩ := ih s1 hrest (by omega) hexact
      refine ⟨s, by rw [hstep]; exact hs, h1, ?_⟩
      rw [htr, slept_append, slept_append, hes, hadj1] at h2
      simp only [slept, htook, List.map_cons, List.sum_cons] at h2 ⊢
      omega
    · obtain ⟨s, hs, h1, h2⟩ := ih s1 hrest (by omega) hexact
      refine ⟨s, by rw [hstep]; exact hs, h1, ?_⟩
      rw [htr, slept_append, hes, hadj1] at h2
      simp only [List.map_cons, List.sum_cons] at h2 ⊢
      omega

/-- C18: at a rate of at least 1, in a run whose iterations read 1 to `BUFSIZE`
bytes each with no time measured between `t_start` and `t_end` and whose sleeps
take exactly the time asked for, after the iterations run so far `adjust` is
at most 200 (as an unsigned value: it has not wrapped below 0) and the time
slept plus `adjust` is at least the sum of the nominal times `1000*n/rate`;
when the next read finds the end of input the loop returns, having slept at
least that sum minus 200. -/
theorem rw_loop_adjust_bounded (rate : Nat) (hrate : 1 ≤ rate) (rounds : List Round)
    (fin : Round) (rest : List Round)
    (hchunk : ∀ r ∈ rounds, 1 ≤ r.rd.data.length ∧ r.rd.data.length ≤ BUFSIZE)
    (hclock : ∀ r ∈ rounds, r.t_end = r.t_start)
    (hfin : fin.rd = .bytes [])
    (hexact : ExactSleeps (rw_loop rate rounds).state.trace) :
    ∃ s, rw_loop rate rounds = .waiting s ∧ s.adjust ≤ 200 ∧
      (rounds.map (nominal rate)).sum ≤ slept s.trace + s.adjust ∧
      ∃ s2, rw_loop rate (rounds ++ fin :: rest) = .returned s2 ∧
        slept s2.trace = slept s.trace ∧
        (rounds.map (nominal rate)).sum ≤ slept s2.trace + 200 := by
  obtain ⟨s, hs, hadj, hinv⟩ := loop_waiting_invariant rate hrate rounds State.init
    (fun r hr => ⟨(hchunk r hr).1, (hchunk r hr).2, hclock r hr⟩) (by simp [State.init]) hexact
  have hinv2 : (rounds.map (nominal rate)).sum ≤ slept s.trace + s.adjust := by
    simpa [State.init, slept] using hinv
  refine ⟨s, hs, hadj, hinv2, { s with trace := s.trace ++ [.read (.bytes [])] }, ?_, ?_, ?_⟩
  · rw [rw_loop, loop_append, hs]
    simp [loop, body_eof rate s fin hfin]
  · simp [slept_append, slept]
  · simp only [slept_append, slept]
    omega

/-- C18, at an input: rate 1000 and three chunks of 40 bytes read in no time;
the third iteration sleeps 160 ms, which the script lets pass exactly. -/
theorem rw_loop_adjust_bounded_witness :
    ∃ s, rw_loop 1000 [Round.quick (List.replicate 40 0), Round.quick (List.replicate 40 0),
        { Round.quick (List.replicate 40 0) with s_end := 160 }] = .waiting s ∧
      s.adjust ≤ 200 ∧
      ([Round.quick (List.replicate 40 0), Round.quick (List.replicate 40 0),
        { Round.quick (List.replicate 40 0) with s_end := 160 }].map (nominal 1000)).sum
          ≤ slept s.trace + s.adjust ∧
      ∃ s2, rw_loop 1000 ([Round.quick (List.replicate 40 0), Round.quick (List.replicate 40 0),
          { Round.quick (List.replicate 40 0) with s_end := 160 }] ++
            Round.quick [] :: []) = .returned s2 ∧
        slept s2.trace = slept s.trace ∧
        ([Round.quick (List.replicate 40 0), Round.quick (List.replicate 40 0),
          { Round.quick (List.replicate 40 0) with s_end := 160 }].map (nominal 1000)).sum
            ≤ slept s2.trace + 200 :=
  rw_loop_adjust_bounded 1000 (by decide)
    [Round.quick (List.replicate 40 0), Round.quick (List.replicate 40 0),
      { Round.quick (List.replicate 40 0) with s_end := 160 }] (Round.quick []) []
    (by decide) (by decide) rfl (by decide)

/-! ## Rates that are parsed to 0 -/

/-- The outcome of `parse_bytes` on a decimal number with a suffix is that of
the conversion of the double product of the number and the multiplier. -/
theorem parse_bytes_decimal_product (ip : List Char) (frac : Option (List Char))
    (sfx : List Char) (hne : ip ≠ []) (hip : ∀ c ∈ ip, isdigit c = true)
    (hfp : ∀ c ∈ frac.getD [], isdigit c = true)
    (hs : sfx ∈ [[], ['K'], ['k'], ['M'], ['m'], ['G'], ['g'], ['T'], ['t']]) :
    parse_bytes (decimalText ip frac ++ sfx) =
      Parsed.ofProduct ((decimalValue ip frac).mul (.finite false (specMult sfx) 0)) := by
  have hchars := decimalText_chars ip frac hip hfp
  obtain ⟨d, ips, hd⟩ := List.exists_cons_of_ne_nil hne
  have htrim : trimmed (decimalText ip frac ++ sfx) ≠ [] := by
    have := trimmed_ne_nil [] (ips ++ fracText frac ++ sfx) d
      (isspace_of_isdigit (hip d (by simp [hd]))) (suffixMult_of_isdigit (hip d (by simp [hd])))
    simpa [decimalText, hd] using this
  have hends : endsNumber ip frac sfx = true := by
    simp only [List.mem_cons, List.mem_singleton, List.not_mem_nil, or_false] at hs
    rcases hs with rfl | rfl | rfl | rfl | rfl | rfl | rfl | rfl | rfl
    · rfl
    all_goals
      exact endsNumber_of _ _ _ _ rfl (by decide) (by decide) (by decide) (by decide)
  have hstr := strtod_decimal [] ip frac sfx (by simp) hne hip hfp hends
  have hmult : multiplier (decimalText ip frac ++ sfx) = .finite false (specMult sfx) 0 := by
    simp only [List.mem_cons, List.mem_singleton, List.not_mem_nil, or_false] at hs
    rcases hs with rfl | rfl | rfl | rfl | rfl | rfl | rfl | rfl | rfl
    · have hnn : decimalText ip frac ≠ [] := by simp [decimalText, hd]
      have hlast := hchars _ (List.getLast_mem hnn)
      rw [List.append_nil, ← List.dropLast_append_getLast hnn, multiplier_concat _ _ hlast.1,
        hlast.2]
      rfl
    all_goals (rw [multiplier_concat _ _ (by decide)]; decide)
  rw [parse_bytes_eq _ (decimalText_ne_inf ip frac sfx hne hip), if_neg htrim, convert]
  rw [List.nil_append] at hstr
  rw [hstr, hmult]

/-- A product below 1 is converted to 0. -/
theorem ofProduct_of_belowOne (x : Double) (h : x.belowOne = true) :
    Parsed.ofProduct x = .ok 0 := by
  cases x with
  | finite neg m e =>
    have hlt : m * 2 ^ e.toNat < 2 ^ (-e).toNat := by simpa [Double.belowOne] using h
    have ht : m * 2 ^ e.toNat / 2 ^ (-e).toNat = 0 := Nat.div_eq_of_lt hlt
    simp [Parsed.ofProduct, Double.toULong, ht, ULONG]
  | inf neg => simp [Double.belowOne] at h
  | nan => simp [Double.belowOne] at h

/-- C16 as amended: a non-negative decimal number with a suffix among none, `K`,
`k`, `M`, `m`, `G`, `g`, `T`, `t` is parsed successfully to 0, the result of
the literal `inf`, whenever the product that the code computes in double
arithmetic, of the double nearest to the number and the multiplier, is below
1. -/
theorem parse_bytes_zero_rate (ip : List Char) (frac : Option (List Char))
    (sfx : List Char) (hne : ip ≠ []) (hip : ∀ c ∈ ip, isdigit c = true)
    (hfp : ∀ c ∈ frac.getD [], isdigit c = true)
    (hs : sfx ∈ [[], ['K'], ['k'], ['M'], ['m'], ['G'], ['g'], ['T'], ['t']])
    (hsmall : ((decimalValue ip frac).mul (.finite false (specMult sfx) 0)).belowOne = true) :
    parse_bytes (decimalText ip frac ++ sfx) = .ok 0 ∧
      parse_bytes (decimalText ip frac ++ sfx) = parse_bytes ['i', 'n', 'f'] := by
  have h := parse_bytes_decimal_product ip frac sfx hne hip hfp hs
  rw [ofProduct_of_belowOne _ hsmall] at h
  exact ⟨h, by rw [h]; decide⟩

/-- C16 as amended, at inputs: `0` and `0.1` are parsed to 0, like `inf`. -/
theorem parse_bytes_zero_rate_witness :
    (parse_bytes (decimalText ['0'] none ++ []) = .ok 0 ∧
        parse_bytes (decimalText ['0'] none ++ []) = parse_bytes ['i', 'n', 'f']) ∧
      (parse_bytes (decimalText ['0'] (some ['1']) ++ []) = .ok 0 ∧
        parse_bytes (decimalText ['0'] (some ['1']) ++ []) = parse_bytes ['i', 'n', 'f']) :=
  ⟨parse_bytes_zero_rate ['0'] none [] (by decide) (by decide) (by decide) (by decide)
      (by decide),
    parse_bytes_zero_rate ['0'] (some ['1']) [] (by decide) (by decide) (by decide) (by decide)
      (by decide)⟩

/-- C16, refuted: `0.99999999999999999` is below 1 and
`0.00097656249999999999k` times 1024 is below 1, but `strtod` rounds them to
the doubles 1 and `2 ^ -10`, and both are parsed to 1, not to 0. -/
theorem parse_bytes_below_one_parsed_to_one :
    parse_bytes ("0.99999999999999999".toList) = .ok 1 ∧
      parse_bytes ("0.00097656249999999999k".toList) = .ok 1 ∧
      parse_bytes ("0".toList) = .ok 0 ∧ parse_bytes ("0.1".toList) = .ok 0 := by
  decide

/-! ## The case of the suffix letter -/

/-- What does not tell the upper-case suffix letters from the lower-case ones
is not changed by `foldSuffix`. -/
theorem foldSuffix_congr {α : Type} (f : Char → α) (hk : f 'k' = f 'K') (hm : f 'm' = f 'M')
    (hg : f 'g' = f 'G') (ht : f 't' = f 'T') (x : Char) : f (foldSuffix x) = f x := by
  unfold foldSuffix
  split_ifs with h1 h2 h3 h4
  · rw [h1]; exact hk
  · rw [h2]; exact hm
  · rw [h3]; exact hg
  · rw [h4]; exact ht
  · rfl

theorem foldSuffix_isspace (x : Char) : isspace (foldSuffix x) = isspace x :=
  foldSuffix_congr isspace (by decide) (by decide) (by decide) (by decide) x

theorem foldSuffix_isdigit (x : Char) : isdigit (foldSuffix x) = isdigit x :=
  foldSuffix_congr isdigit (by decide) (by decide) (by decide) (by decide) x

theorem foldSuffix_isxdigit (x : Char) : isxdigit (foldSuffix x) = isxdigit x :=
  foldSuffix_congr isxdigit (by decide) (by decide) (by decide) (by decide) x

theorem foldSuffix_isnchar (x : Char) : isnchar (foldSuffix x) = isnchar x :=
  foldSuffix_congr isnchar (by decide) (by decide) (by decide) (by decide) x

theorem foldSuffix_tolower (x : Char) : tolower (foldSuffix x) = tolower x :=
  foldSuffix_congr tolower (by decide) (by decide) (by decide) (by decide) x

theorem foldSuffix_digitVal (x : Char) : digitVal (foldSuffix x) = digitVal x :=
  foldSuffix_congr digitVal (by decide) (by decide) (by decide) (by decide) x

/-- A character that is no suffix letter is the image of itself only. -/
theorem foldSuffix_eq_iff (k : Char) (hk : foldSuffix k = k)
    (h1 : k ≠ 'k') (h2 : k ≠ 'm') (h3 : k ≠ 'g') (h4 : k ≠ 't') (x : Char) :
    foldSuffix x = k ↔ x = k := by
  constructor
  · intro h
    unfold foldSuffix at h
    split_ifs at h with a b c d
    · exact absurd h.symm h1
    · exact absurd h.symm h2
    · exact absurd h.symm h3
    · exact absurd h.symm h4
    · exact h
  · rintro rfl; exact hk

theorem head_map_foldSuffix (k : Char) (hk : foldSuffix k = k)
    (h1 : k ≠ 'k') (h2 : k ≠ 'm') (h3 : k ≠ 'g') (h4 : k ≠ 't') (s : List Char) :
    (s.map foldSuffix).head? = some k ↔ s.head? = some k := by
  cases s with
  | nil => simp
  | cons x xs => simp [foldSuffix_eq_iff k hk h1 h2 h3 h4 x]

theorem head_tolower_map_foldSuffix (s : List Char) :
    (s.map foldSuffix).head?.map tolower = s.head?.map tolower := by
  cases s with
  | nil => rfl
  | cons x xs => simp [foldSuffix_tolower]

theorem takeWhile_map_foldSuffix {p : Char → Bool} (hp : ∀ x, p (foldSuffix x) = p x)
    (s : List Char) : (s.map foldSuffix).takeWhile p = (s.takeWhile p).map foldSuffix := by
  have : p ∘ foldSuffix = p := funext hp
  rw [List.takeWhile_map, this]

theorem dropWhile_map_foldSuffix {p : Char → Bool} (hp : ∀ x, p (foldSuffix x) = p x)
    (s : List Char) : (s.map foldSuffix).dropWhile p = (s.dropWhile p).map foldSuffix := by
  have : p ∘ foldSuffix = p := funext hp
  rw [List.dropWhile_map, this]

theorem natOfDigits_map_foldSuffix (base : Nat) (ds : List Char) :
    natOfDigits base (ds.map foldSuffix) = natOfDigits base ds := by
  unfold natOfDigits
  rw [List.foldl_map]
  simp only [foldSuffix_digitVal]

theorem scanSign_map_foldSuffix (s : List Char) :
    scanSign (s.map foldSuffix) = ((scanSign s).1, (scanSign s).2.map foldSuffix) := by
  unfold scanSign
  have hm := head_map_foldSuffix '-' (by decide) (by decide) (by decide) (by decide)
    (by decide) s
  have hp := head_map_foldSuffix '+' (by decide) (by decide) (by decide) (by decide)
    (by decide) s
  by_cases h1 : s.head? = some '-'
  · rw [if_pos h1, if_pos (hm.mpr h1), List.map_tail]
  · rw [if_neg h1, if_neg (fun h => h1 (hm.mp h))]
    by_cases h2 : s.head? = some '+'
    · rw [if_pos h2, if_pos (hp.mpr h2), List.map_tail]
    · rw [if_neg h2, if_neg (fun h => h2 (hp.mp h))]

theorem scanMantissa_map_foldSuffix {p : Char → Bool} (hp : ∀ x, p (foldSuffix x) = p x)
    (s : List Char) :
    scanMantissa p (s.map foldSuffix) = (scanMantissa p s).map
      (fun r => (r.1.map foldSuffix, r.2.1.map foldSuffix, r.2.2.map foldSuffix)) := by
  unfold scanMantissa
  rw [takeWhile_map_foldSuffix hp, dropWhile_map_foldSuffix hp]
  have hd := head_map_foldSuffix '.' (by decide) (by decide) (by decide) (by decide)
    (by decide) (s.dropWhile p)
  by_cases hdot : (s.dropWhile p).head? = some '.'
  · rw [if_pos hdot, if_pos (hd.mpr hdot), ← List.map_tail, takeWhile_map_foldSuffix hp,
      dropWhile_map_foldSuffix hp]
    simp only [List.map_eq_nil_iff]
    split_ifs <;> rfl
  · rw [if_neg hdot, if_neg (fun h => hdot (hd.mp h))]
    simp only [List.map_eq_nil_iff]
    split_ifs <;> rfl

theorem scanExponent_map_foldSuffix (m : Char) (s : List Char) :
    scanExponent m (s.map foldSuffix) =
      ((scanExponent m s).1, (scanExponent m s).2.map foldSuffix) := by
  unfold scanExponent
  rw [head_tolower_map_foldSuffix, ← List.map_tail, scanSign_map_foldSuffix]
  simp only [takeWhile_map_foldSuffix foldSuffix_isdigit,
    dropWhile_map_foldSuffix foldSuffix_isdigit, natOfDigits_map_foldSuffix,
    List.map_eq_nil_iff, ne_eq]
  split_ifs <;> rfl

theorem scanWord_map_foldSuffix : ∀ (pat s : List Char),
    scanWord pat (s.map foldSuffix) = (scanWord pat s).map (List.map foldSuffix) := by
  intro pat
  induction pat with
  | nil => intro s; simp [scanWord]
  | cons q qs ih =>
    intro s
    cases s with
    | nil => rfl
    | cons x xs =>
      simp only [List.map_cons, scanWord, foldSuffix_tolower]
      split_ifs
      · exact ih xs
      · rfl

theorem scanDecimal_map_foldSuffix (neg : Bool) (s : List Char) :
    scanDecimal neg (s.map foldSuffix) =
      (scanDecimal neg s).map (fun r => (r.1, r.2.map foldSuffix)) := by
  unfold scanDecimal
  rw [scanMantissa_map_foldSuffix foldSuffix_isdigit]
  cases scanMantissa isdigit s with
  | none => rfl
  | some r =>
    obtain ⟨ip, fp, t⟩ := r
    simp only [Option.map_some']
    rw [scanExponent_map_foldSuffix, ← List.map_append, natOfDigits_map_foldSuffix,
      List.length_map]

theorem scanHex_map_foldSuffix (neg : Bool) (s : List Char) :
    scanHex neg (s.map foldSuffix) =
      (scanHex neg s).map (fun r => (r.1, r.2.map foldSuffix)) := by
  unfold scanHex
  have h0 := head_map_foldSuffix '0' (by decide) (by decide) (by decide) (by decide)
    (by decide) s
  have hx : (s.map foldSuffix).tail.head?.map tolower = s.tail.head?.map tolower := by
    rw [← List.map_tail, head_tolower_map_foldSuffix]
  by_cases h : s.head? = some '0' ∧ s.tail.head?.map tolower = some 'x'
  · rw [if_pos h, if_pos ⟨h0.mpr h.1, hx ▸ h.2⟩, ← List.map_tail, ← List.map_tail,
      scanMantissa_map_foldSuffix foldSuffix_isxdigit]
    cases scanMantissa isxdigit s.tail.tail with
    | none => rfl
    | some r =>
      obtain ⟨ip, fp, t⟩ := r
      simp only [Option.map_some']
      rw [scanExponent_map_foldSuffix, ← List.map_append, natOfDigits_map_foldSuffix,
        List.length_map]
  · rw [if_neg h, if_neg (fun h2 => h ⟨h0.mp h2.1, hx ▸ h2.2⟩)]
    rfl

theorem scanInf_map_foldSuffix (neg : Bool) (s : List Char) :
    scanInf neg (s.map foldSuffix) =
      (scanInf neg s).map (fun r => (r.1, r.2.map foldSuffix)) := by
  unfold scanInf
  rw [scanWord_map_foldSuffix]
  cases scanWord ['i', 'n', 'f'] s with
  | none => rfl
  | some t =>
    simp only [Option.map_some']
    rw [scanWord_map_foldSuffix]
    cases scanWord ['i', 'n', 'i', 't', 'y'] t <;> rfl

theorem scanNan_map_foldSuffix (s : List Char) :
    scanNan (s.map foldSuffix) = (scanNan s).map (fun r => (r.1, r.2.map foldSuffix)) := by
  unfold scanNan
  rw [scanWord_map_foldSuffix]
  cases scanWord ['n', 'a', 'n'] s with
  | none => rfl
  | some t =>
    simp only [Option.map_some']
    have ho := head_map_foldSuffix '(' (by decide) (by decide) (by decide) (by decide)
      (by decide) t
    have hc := head_map_foldSuffix ')' (by decide) (by decide) (by decide) (by decide)
      (by decide) (t.tail.dropWhile isnchar)
    have hd : (t.map foldSuffix).tail.dropWhile isnchar
        = (t.tail.dropWhile isnchar).map foldSuffix := by
      rw [← List.map_tail, dropWhile_map_foldSuffix foldSuffix_isnchar]
    rw [hd]
    by_cases h : t.head? = some '(' ∧ (t.tail.dropWhile isnchar).head? = some ')'
    · rw [if_pos h, if_pos ⟨ho.mpr h.1, hc.mpr h.2⟩, ← List.map_tail]
      rfl
    · rw [if_neg h, if_neg (fun h2 => h ⟨ho.mp h2.1, hc.mp h2.2⟩)]
      rfl

theorem scanNumber_map_foldSuffix (neg : Bool) (s : List Char) :
    scanNumber neg (s.map foldSuffix) =
      (scanNumber neg s).map (fun r => (r.1, r.2.map foldSuffix)) := by
  unfold scanNumber
  rw [scanHex_map_foldSuffix, scanDecimal_map_foldSuffix, scanInf_map_foldSuffix,
    scanNan_map_foldSuffix]
  cases scanHex neg s with
  | some r => rfl
  | none =>
    cases scanDecimal neg s with
    | some r => rfl
    | none =>
      cases scanInf neg s with
      | some r => rfl
      | none => rfl

/-- The number that `strtod` converts does not depend on the case of the
letters `k`, `m`, `g`, `t` in the string. -/
theorem strtod_map_foldSuffix (s : List Char) :
    strtod (s.map foldSuffix) = (strtod s).map (fun r => (r.1, r.2.map foldSuffix)) := by
  unfold strtod
  rw [dropWhile_map_foldSuffix foldSuffix_isspace, scanSign_map_foldSuffix]
  exact scanNumber_map_foldSuffix _ _

/-- Two strings that differ in the case of suffix letters only are converted
alike. -/
theorem convert_of_map_foldSuffix (a b : List Char) (mult : Double)
    (h : a.map foldSuffix = b.map foldSuffix) : convert a mult = convert b mult := by
  have ha := strtod_map_foldSuffix a
  have hb := strtod_map_foldSuffix b
  rw [h] at ha
  rw [ha] at hb
  unfold convert
  cases hsa : strtod a with
  | none =>
    cases hsb : strtod b with
    | none => rfl
    | some q => rw [hsa, hsb] at hb; simp at hb
  | some p =>
    cases hsb : strtod b with
    | none => rw [hsa, hsb] at hb; simp at hb
    | some q =>
      rw [hsa, hsb] at hb
      simp only [Option.map_some', Option.some.injEq, Prod.mk.injEq] at hb
      simp only [hb.1]

theorem trimmed_suffix (b : List Char) (c : Char) (hc : (suffixMult c).isSome = true) :
    trimmed (b ++ [c]) = (b.dropWhile isspace).rdropWhile isspace := by
  have hcs : isspace c = false := by
    by_contra hcon
    have := suffixMult_of_isspace (by simpa using hcon : isspace c = true)
    simp [this] at hc
  unfold trimmed
  rw [List.rdropWhile_concat_neg _ _ _ (by simp [hcs]), List.getLast?_concat]
  simp only [hc, if_true, List.dropLast_concat]

/-- C17: for every string `b` and every suffix letter `c` among `k`, `m`, `g`,
`t`, `parse_bytes` has the same outcome on `b` followed by `c` and on `b`
followed by the upper-case letter of `c`: both calls fail, or both store the
same value, or both reach the same conversion that is out of range. -/
theorem parse_bytes_suffix_case (b : List Char) (c : Char) (hc : c ∈ ['k', 'm', 'g', 't']) :
    parse_bytes (b ++ [c]) = parse_bytes (b ++ [c.toUpper]) := by
  have hfacts : (suffixMult c).isSome = true ∧ (suffixMult c.toUpper).isSome = true ∧
      suffixMult c.toUpper = suffixMult c ∧ foldSuffix c.toUpper = foldSuffix c ∧
      c ≠ 'f' ∧ c.toUpper ≠ 'f' ∧ isspace c = false ∧ isspace c.toUpper = false := by
    simp only [List.mem_cons, List.mem_singleton, List.not_mem_nil, or_false] at hc
    rcases hc with rfl | rfl | rfl | rfl <;> decide
  obtain ⟨hs1, hs2, hsm, hfold, hf1, hf2, hw1, hw2⟩ := hfacts
  have hinf : ∀ x : Char, x ≠ 'f' → b ++ [x] ≠ ['i', 'n', 'f'] := by
    intro x hx h
    have h1 : (b ++ [x]).getLast? = some x := List.getLast?_concat _
    rw [h] at h1
    exact hx (by simpa using h1.symm)
  rw [parse_bytes_eq _ (hinf c hf1), parse_bytes_eq _ (hinf _ hf2), trimmed_suffix b c hs1,
    trimmed_suffix b _ hs2, multiplier_concat _ _ hw1, multiplier_concat _ _ hw2, hsm]
  split
  · rfl
  · exact convert_of_map_foldSuffix _ _ _ (by simp [hfold])

/-- C17, at an input: `1.5m` and `1.5M` are both parsed to 1572864. -/
theorem parse_bytes_suffix_case_witness :
    parse_bytes ("1.5".toList ++ ['m']) = parse_bytes ("1.5".toList ++ ['m'.toUpper]) ∧
      parse_bytes ("1.5".toList ++ ['m']) = .ok 1572864 :=
  ⟨parse_bytes_suffix_case ("1.5".toList) 'm' (by decide), by decide⟩

end Throt
